import Mathlib

/-!
Verification of the code-scanner core pipeline (extraction shell, metric
calculation, hierarchy reconstruction, ancestor-preserving filtering and
multi-format rendering) found in `src/index.ts`.

The embedding follows the TypeScript source:
* `Definition` / `Parameter` / `FilterOptions` mirror the interfaces of the
  source file; JS optional fields become `Option`.
* The tree-sitter syntax tree is modelled by `SNode` (an opaque external
  collaborator in the source): a node has a node-kind string, inclusive
  start/end positions `(row, column)`, the text of its `operator` field when
  one exists, and an ordered list of children.
* JS regular expressions are modelled semantically: a pattern is an
  `Option (String → Bool)` where `none` stands for a pattern whose
  `new RegExp` construction throws (invalid regex) and `some f` for a valid
  regex with test function `f`.  The modifier-stripping regex built
  dynamically inside the filter's ancestor walk is likewise modelled by an
  ambient function `stripMod : String → String → Option String` (`none`
  when that regex construction throws).
* JS `Set`s of ids are modelled by lists used only through membership.
* The in-place stable `Array.prototype.sort` with comparator
  `(a, b) => a.startLine - b.startLine` is modelled by the stable insertion
  sort `stableSortBy`.
-/

namespace CodeScanner

/-- `Parameter` interface of the source. -/
structure Parameter where
  name : String
  type : Option String := none
deriving DecidableEq, Repr

/-- `Definition` interface of the source (JS optional fields are `Option`). -/
structure Definition where
  id : Option String := none
  type : String
  name : String
  startLine : Nat
  endLine : Nat
  modifier : Option String := none
  dataType : Option String := none
  value : Option String := none
  parentId : Option String := none
  children : Option (List String) := none
  parameters : Option (List Parameter) := none
  returnType : Option String := none
  complexity : Option Nat := none
  parameterCount : Option Nat := none
  loc : Option Nat := none
  calls : Option (List String) := none
deriving DecidableEq, Repr

/-- `FilterOptions` interface.  Regex-valued options are stored semantically:
`none` = option absent (or the empty string, which is falsy in JS),
`some none` = pattern present but `new RegExp` throws (invalid regex),
`some (some f)` = valid regex with test function `f`. -/
structure FilterOptions where
  includeTypes : Option (List String) := none
  excludeTypes : Option (List String) := none
  includeModifiers : Option (List String) := none
  excludeModifiers : Option (List String) := none
  namePattern : Option (Option (String → Bool)) := none
  excludeNamePattern : Option (Option (String → Bool)) := none
  maxComplexity : Option Nat := none
  minComplexity : Option Nat := none
  maxParameters : Option Nat := none
  minParameters : Option Nat := none

/-- JS truthiness of an optional string (`undefined` and `""` are falsy). -/
def optStrTruthy : Option String → Bool
  | none => false
  | some s => !s.isEmpty

/-- Tree-sitter syntax node: node kind, start/end positions (`row`, `column`),
text of the node's `operator` field (if any), ordered children. -/
inductive SNode where
  | node (ntype : String) (startPos : Nat × Nat) (endPos : Nat × Nat)
      (operator : Option String) (children : List SNode)

def SNode.ntype : SNode → String
  | .node t _ _ _ _ => t

def SNode.startPos : SNode → Nat × Nat
  | .node _ s _ _ _ => s

def SNode.endPos : SNode → Nat × Nat
  | .node _ _ e _ _ => e

def SNode.operator : SNode → Option String
  | .node _ _ _ op _ => op

def SNode.children : SNode → List SNode
  | .node _ _ _ _ cs => cs

/-- Node kinds counted as decision points (`decisionPointTypes` set in
`calculateComplexity`). -/
def decisionPointTypes : List String :=
  ["if_statement", "while_statement", "for_statement", "for_in_statement",
   "switch_case", "case_statement", "switch_default",
   "conditional_expression",
   "binary_expression",
   "boolean_operator",
   "catch_clause",
   "foreach_statement",
   "case_clause"]

/-- The complexity increment contributed by a single visited node in the
`traverse` closure of `calculateComplexity`: a decision-point node increments
by one, except that `binary_expression` / `boolean_operator` nodes increment
only when their `operator` field text is `&&`, `||`, `and` or `or`. -/
def nodeIncrement (t : String) (op : Option String) : Nat :=
  if decisionPointTypes.contains t then
    if t == "binary_expression" || t == "boolean_operator" then
      match op with
      | some o => if o == "&&" || o == "||" || o == "and" || o == "or" then 1 else 0
      | none => 0
    else 1
  else 0

mutual
/-- Total increments accumulated by `traverse` over a subtree. -/
def complexityIncrements : SNode → Nat
  | .node t _ _ op cs => nodeIncrement t op + complexityIncrementsList cs

def complexityIncrementsList : List SNode → Nat
  | [] => 0
  | c :: cs => complexityIncrements c + complexityIncrementsList cs
end

/-- `calculateComplexity`: base complexity 1 for a null node, otherwise 1 (the
single entry point) plus one increment per decision point encountered by the
recursive traversal. -/
def calculateComplexity : Option SNode → Nat
  | none => 1
  | some n => 1 + complexityIncrements n

mutual
/-- All nodes of a subtree (the nodes visited by `traverse`). -/
def subtreeNodes : SNode → List SNode
  | .node t s e op cs => .node t s e op cs :: subtreeNodesList cs

def subtreeNodesList : List SNode → List SNode
  | [] => []
  | c :: cs => subtreeNodes c ++ subtreeNodesList cs
end

/-- Declarative form of "this node is a decision point that increments the
count": its kind is in `decisionPointTypes`, and if the kind is
`binary_expression` or `boolean_operator` its operator text must be one of
`&&`, `||`, `and`, `or`. -/
def isDecisionPointNode (n : SNode) : Bool :=
  decisionPointTypes.contains n.ntype &&
    (if n.ntype == "binary_expression" || n.ntype == "boolean_operator" then
      match n.operator with
      | some o => o == "&&" || o == "||" || o == "and" || o == "or"
      | none => false
    else true)

/-- Stable insertion used to model the (stable) JS `Array.prototype.sort`:
`x` is placed before the first element `y` with `le x y`. -/
def insertOrdered {α : Type} (le : α → α → Bool) (x : α) : List α → List α
  | [] => [x]
  | y :: ys => if le x y then x :: y :: ys else y :: insertOrdered le x ys

/-- Stable sort (extensionally equal to the stable JS sort for a comparator
induced by a total preorder `le`). -/
def stableSortBy {α : Type} (le : α → α → Bool) : List α → List α
  | [] => []
  | x :: xs => insertOrdered le x (stableSortBy le xs)

/-- The comparator `(a, b) => a.startLine - b.startLine` of the final sort in
`applyFiltersToDefinitions`, as a total preorder. -/
def defLineLe (a b : Definition) : Bool :=
  a.startLine ≤ b.startLine

/-- `def.type === 'error' || def.type === 'metadata'`. -/
def isMetaType (t : String) : Bool :=
  t == "error" || t == "metadata"

/-- The `metaEntries` split in `applyFiltersToDefinitions`. -/
def metaEntriesOf (defs : List Definition) : List Definition :=
  defs.filter (fun d => isMetaType d.type)

/-- The `nonMetaEntries` split in `applyFiltersToDefinitions`. -/
def nonMetaEntriesOf (defs : List Definition) : List Definition :=
  defs.filter (fun d => !(isMetaType d.type))

/-- `def.name.split(' ').pop() || def.name`: the last space-delimited token of
the name, falling back to the full name when that token is empty (falsy). -/
def lastNameToken (name : String) : String :=
  let t := ((name.splitOn " ").getLast?).getD ""
  if t.isEmpty then name else t

/-- `def.modifier?.split(' ') || []`. -/
def defModifiers (d : Definition) : List String :=
  match d.modifier with
  | some m => m.splitOn " "
  | none => []

/-- The basic per-definition predicate of step 1 of `applyFiltersToDefinitions`
(lines 1090–1141): every condition is checked in source order and any failing
condition excludes the definition (early `return false`). -/
def basicFilterPred (opts : FilterOptions) (d : Definition) : Bool :=
  -- Type filtering
  if (match opts.includeTypes with
      | some l => 0 < l.length && !(l.contains d.type)
      | none => false) then false
  else if (match opts.excludeTypes with
      | some l => 0 < l.length && l.contains d.type
      | none => false) then false
  -- Modifier filtering (token membership over the space-split modifier set)
  else if (match opts.includeModifiers with
      | some l => 0 < l.length &&
          (!(optStrTruthy d.modifier) || !(l.any (fun m => (defModifiers d).contains m)))
      | none => false) then false
  else if (match opts.excludeModifiers with
      | some l => 0 < l.length && optStrTruthy d.modifier &&
          l.any (fun m => (defModifiers d).contains m)
      | none => false) then false
  -- Name pattern filtering: invalid regex fails closed (excludes)
  else if (match opts.namePattern with
      | some none => true
      | some (some f) => !(f (lastNameToken d.name)) && !(f d.name)
      | none => false) then false
  -- Exclude-name pattern: invalid regex fails open (exclusion skipped)
  else if (match opts.excludeNamePattern with
      | some (some f) => f (lastNameToken d.name) || f d.name
      | _ => false) then false
  -- Metric filtering
  else if (match opts.minComplexity with
      | some m => (match d.complexity with | none => true | some c => c < m)
      | none => false) then false
  else if (match opts.maxComplexity with
      | some m => (match d.complexity with | none => true | some c => m < c)
      | none => false) then false
  else if (match opts.minParameters with
      | some m => (match d.parameterCount with | none => true | some c => c < m)
      | none => false) then false
  else if (match opts.maxParameters with
      | some m => (match d.parameterCount with | none => true | some c => m < c)
      | none => false) then false
  else true

/-- Step 2 of `applyFiltersToDefinitions`: the basic survivor set. -/
def basicFilteredEntries (opts : FilterOptions) (defs : List Definition) : List Definition :=
  (nonMetaEntriesOf defs).filter (basicFilterPred opts)

/-- The excluded-parent check inside the ancestor-closure loop (lines
1162–1174): with a valid `excludeNamePattern` the parent's name is tested both
with the modifier prefix stripped (via a dynamically built regex, modelled by
`stripMod`; `none` = that regex construction threw, which is caught and skips
the exclusion) and in full.  An invalid `excludeNamePattern` skips the
exclusion (fail open). -/
def parentExcluded (stripMod : String → String → Option String)
    (opts : FilterOptions) (p : Definition) : Bool :=
  match opts.excludeNamePattern with
  | some (some f) =>
    match (if optStrTruthy p.modifier then stripMod (p.modifier.getD "") p.name
           else some p.name) with
    | none => false
    | some nameWithoutModifier => f nameWithoutModifier || f p.name
  | _ => false

/-- The ancestor-closure worklist loop (step 3, lines 1151–1180).  `work` is
the JS array used as a stack (head = next to pop), `processed` the
`processedForParents` set and `S` the `entriesToInclude` set (both JS Sets are
modelled as lists used through membership only).  The `fuel` argument bounds
the number of iterations; `applyFiltersToDefinitions` passes enough fuel that
it is never exhausted. -/
def closureLoop (stripMod : String → String → Option String) (opts : FilterOptions)
    (copy : List Definition) :
    Nat → List Definition → List (Option String) → List (Option String) → List (Option String)
  | 0, _, _, S => S
  | _ + 1, [], _, S => S
  | fuel + 1, current :: rest, processed, S =>
    if optStrTruthy current.id = false ∨ current.id ∈ processed then
      closureLoop stripMod opts copy fuel rest processed S
    else
      if optStrTruthy current.parentId = true ∧ current.parentId ∉ S then
        match copy.find? (fun p => p.id == current.parentId) with
        | some parent =>
          if optStrTruthy parent.id = true then
            if parentExcluded stripMod opts parent = true then
              closureLoop stripMod opts copy fuel rest (current.id :: processed) S
            else
              closureLoop stripMod opts copy fuel (parent :: rest)
                (current.id :: processed) (parent.id :: S)
          else closureLoop stripMod opts copy fuel rest (current.id :: processed) S
        | none => closureLoop stripMod opts copy fuel rest (current.id :: processed) S
      else closureLoop stripMod opts copy fuel rest (current.id :: processed) S

/-- The final `entriesToInclude` set: basic survivors closed under
non-excluded ancestors.  The initial worklist is `[...basicFilteredEntries]`
popped from the end, i.e. processed in reverse order. -/
def filterSurvivorIds (stripMod : String → String → Option String)
    (defs : List Definition) (opts : FilterOptions) : List (Option String) :=
  closureLoop stripMod opts defs
    (defs.length + (basicFilteredEntries opts defs).length + 1)
    (basicFilteredEntries opts defs).reverse []
    ((basicFilteredEntries opts defs).map Definition.id)

/-- Step 6 of `applyFiltersToDefinitions`: re-point `children` to ids still
present and clear a dangling truthy `parentId`. -/
def repointDefinition (finalIds : List (Option String)) (d : Definition) : Definition :=
  { d with
    children := d.children.map (fun cs => cs.filter (fun cid => decide (some cid ∈ finalIds)))
    parentId :=
      match d.parentId with
      | some p => if !p.isEmpty ∧ some p ∉ finalIds then none else some p
      | none => none }

/-- Steps 5–7 of `applyFiltersToDefinitions`: materialize the survivors,
re-point links, and reattach the meta entries — the final list before the
closing sort. -/
def filterPrepared (stripMod : String → String → Option String)
    (defs : List Definition) (opts : FilterOptions) : List Definition :=
  metaEntriesOf defs ++
    (defs.filter (fun d => optStrTruthy d.id &&
        decide (d.id ∈ filterSurvivorIds stripMod defs opts))).map
      (repointDefinition
        ((defs.filter (fun d => optStrTruthy d.id &&
            decide (d.id ∈ filterSurvivorIds stripMod defs opts))).map Definition.id))

/-- `applyFiltersToDefinitions` (lines 1079–1211).  The deep copy of the input
is the identity on values; `stripMod` is the ambient modifier-stripping regex
behaviour used inside the ancestor walk. -/
def applyFiltersToDefinitions (stripMod : String → String → Option String)
    (defs : List Definition) (opts : FilterOptions) : List Definition :=
  if defs.isEmpty then []
  else stableSortBy defLineLe (filterPrepared stripMod defs opts)

/-- Heap-level model of `applyFiltersToDefinitions`, making the JS object
mutation explicit.  The heap is a list of definition slots: the caller's
definitions occupy addresses `0..n-1`; the `JSON.parse(JSON.stringify(...))`
deep copy allocates fresh value-equal slots at addresses `n..2n-1`, and the
only slot mutations of the function (the step-6 re-pointing) are performed on
the survivor addresses, which all lie in the copy region.  Returns the heap
restricted to the caller's addresses after the call, together with the
returned list. -/
def applyFiltersToDefinitionsHeap (stripMod : String → String → Option String)
    (input : List Definition) (opts : FilterOptions) :
    List Definition × List Definition :=
  let n := input.length
  let heap0 := input ++ input
  let S := filterSurvivorIds stripMod input opts
  let survivorAddrs := (List.range' n n).filter (fun a =>
    match heap0.get? a with
    | some d => optStrTruthy d.id && decide (d.id ∈ S)
    | none => false)
  let finalIds := survivorAddrs.filterMap (fun a => (heap0.get? a).map Definition.id)
  let heap1 := survivorAddrs.foldl (fun h a =>
    match h.get? a with
    | some d => h.set a (repointDefinition finalIds d)
    | none => h) heap0
  let output :=
    if input.isEmpty then []
    else stableSortBy defLineLe (metaEntriesOf input ++ survivorAddrs.filterMap (heap1.get? ·))
  (heap1.take n, output)

/-! ### Hierarchy builder (lines 517–552) -/

/-- Lexicographic order on tree-sitter points `(row, column)`. -/
def posLe (p q : Nat × Nat) : Bool :=
  p.1 < q.1 || (p.1 == q.1 && p.2 ≤ q.2)

/-- Strict lexicographic order on points. -/
def posLt (p q : Nat × Nat) : Bool :=
  p.1 < q.1 || (p.1 == q.1 && p.2 < q.2)

/-- A node's range contains a point (start inclusive, end exclusive, as in
tree-sitter's `descendantForPosition`). -/
def containsPoint (n : SNode) (pt : Nat × Nat) : Bool :=
  posLe n.startPos pt && posLt pt n.endPos

mutual
/-- The root-to-result path taken by `descendantForPosition`: starting at the
root, repeatedly descend into the first child whose range contains the point;
the last element of the path is the returned (smallest) node. -/
def descendPath (pt : Nat × Nat) : SNode → List SNode
  | .node t s e op cs => .node t s e op cs :: descendChild pt cs

def descendChild (pt : Nat × Nat) : List SNode → List SNode
  | [] => []
  | c :: cs => if containsPoint c pt then descendPath pt c else descendChild pt cs
end

/-- The `.parent` chain of the node returned by `descendantForPosition`,
walked outward (immediate parent first, tree root last). -/
def ancestorsAt (root : SNode) (pt : Nat × Nat) : List SNode :=
  ((descendPath pt root).dropLast).reverse

/-- The plausible container kinds accepted for a parent. -/
def plausibleParentTypes : List String :=
  ["class", "namespace", "interface", "enum", "method", "function"]

/-- The predicate of the `definitions.find` call inside the ancestor walk:
a different definition (strict `!==` on ids) whose exact line span equals the
ancestor node's and whose kind is plausible. -/
def defMatchesAncestor (d : Definition) (a : SNode) (q : Definition) : Bool :=
  q.id != d.id &&
  q.startLine == a.startPos.1 + 1 &&
  q.endLine == a.endPos.1 + 1 &&
  plausibleParentTypes.contains q.type

/-- Walk the ancestor chain outward; at each ancestor take the first matching
definition (by list position); the first ancestor with a match wins. -/
def findParentIdxAux (defs : List Definition) (d : Definition) :
    List SNode → Option Nat
  | [] => none
  | a :: rest =>
    match defs.findIdx? (defMatchesAncestor d a) with
    | some i => some i
    | none => findParentIdxAux defs d rest

/-- Index (object identity) of the parent chosen for `d` by the tree-walk:
the node at `d`'s start line is located with
`descendantForPosition({row: d.startLine - 1, column: 0})` and its ancestor
chain is walked outward. -/
def findParentIdx (tree : SNode) (defs : List Definition) (d : Definition) : Option Nat :=
  findParentIdxAux defs d (ancestorsAt tree (d.startLine - 1, 0))

/-- The parent-child linking pass: sets `parentId` to the chosen parent's id
and appends each child's (truthy) id to its parent's `children`, initialising
`children` to `[]` when the parent is chosen by anyone. -/
def assignParents (tree : SNode) (defs : List Definition) : List Definition :=
  defs.enum.map (fun je =>
    let j := je.1
    let e := je.2
    let e1 :=
      match findParentIdx tree defs e with
      | some i => { e with parentId := (defs.get? i).bind Definition.id }
      | none => e
    let kids := defs.filterMap (fun d =>
      if findParentIdx tree defs d == some j && optStrTruthy d.id then d.id else none)
    if defs.any (fun d => findParentIdx tree defs d == some j) then
      { e1 with children := some (e1.children.getD [] ++ kids) }
    else e1)

/-! ### Extraction shell and scan post-processing (lines 318–359, 1012–1048) -/

/-- Extensions registered in `languageMap`. -/
def languageMapExts : List String :=
  [".js", ".jsx", ".ts", ".tsx", ".cs", ".php", ".css", ".py"]

/-- Extensions that own a query set in `queries` (note `.jsx`/`.tsx` have a
language but no query set, and `.css` has an empty query set). -/
def queriesExts : List String :=
  [".js", ".ts", ".cs", ".php", ".css", ".py"]

/-- The synthetic in-band error definition (kind `error`, zero line range). -/
def errorDefinition (name : String) : Definition :=
  { type := "error", name := name, startLine := 0, endLine := 0 }

/-- The guard structure of `parseCodeWithTreeSitter`: unsupported extension,
parse failure (with the self-file special case changing only the message), or
missing query set each yield exactly one synthetic error definition;
otherwise the main extraction result (abstracted as `mainResult`) is
returned. -/
def parseCodeWithTreeSitterShell (fileExt : String) (filePath : String)
    (parseOk : Bool) (isSelfTarget : Bool) (mainResult : List Definition) :
    List Definition :=
  if !(languageMapExts.contains fileExt) then
    [errorDefinition "Unsupported file type"]
  else if !parseOk then
    if isSelfTarget then [errorDefinition ("Failed to parse self (" ++ filePath ++ ")")]
    else [errorDefinition ("Failed to parse " ++ filePath)]
  else if !(queriesExts.contains fileExt) then
    [errorDefinition "No queries defined for file type"]
  else mainResult

/-- `performScan`'s per-file degrade for a read failure. -/
def readFailureResult (message : String) : List Definition :=
  [errorDefinition ("Failed to read/parse: " ++ message)]

/-- `filteredDefs.some(def => def.type !== 'error')`. -/
def hasRealDefinitions (ds : List Definition) : Bool :=
  ds.any (fun d => d.type != "error")

/-- The definition-filtering stage of `performScan` (lines 1034–1048): each
file's definitions are filtered, and a file is included in the final results
only if it still has at least one non-error definition; `relpath` models the
relative-path rewrite of the output keys. -/
def filterScanResults (stripMod : String → String → Option String)
    (relpath : String → String) (results : List (String × List Definition))
    (opts : FilterOptions) : List (String × List Definition) :=
  results.filterMap (fun pr =>
    let filteredDefs := applyFiltersToDefinitions stripMod pr.2 opts
    if hasRealDefinitions filteredDefs then some (relpath pr.1, filteredDefs)
    else none)

/-! ### Call extraction (lines 472–492) -/

/-- `match.captures.find(c => c.name === "call_name")?.node.text`: a match is
modelled as its capture list (capture name, node text). -/
def findCallName (captures : List (String × String)) : Option String :=
  (captures.find? (fun c => c.1 == "call_name")).map Prod.snd

/-- The `calledNames` set accumulated over the call-query matches, in
insertion (first-seen) order and without duplicates. -/
def collectCalledNames (callMatches : List (List (String × String))) : List String :=
  callMatches.foldl (fun acc m =>
    match findCallName m with
    | some t => if acc.contains t then acc else acc ++ [t]
    | none => acc) []

/-- `definition.calls` is assigned only when at least one name was found
(`calledNames.size > 0`). -/
def extractCalls (callMatches : List (List (String × String))) : Option (List String) :=
  if 0 < (collectCalledNames callMatches).length then some (collectCalledNames callMatches)
  else none

/-- The effect of the call-extraction block on the enclosing definition:
`callQueryOutcome = none` models a thrown (and caught) query construction or
execution — the definition is left untouched; otherwise the calls field is
set only when names were found. -/
def attachCalls (d : Definition)
    (callQueryOutcome : Option (List (List (String × String)))) : Definition :=
  match callQueryOutcome with
  | none => d
  | some ms =>
    match extractCalls ms with
    | none => d
    | some names => { d with calls := some names }

/-! ### Renderers (lines 568–815) -/

/-- The `detailLevel` setting. -/
inductive DetailLevel where
  | minimal
  | standard
  | detailed
deriving DecidableEq, Repr

/-- An XML element as built through `xmlbuilder2` (attributes in insertion
order, then child elements); serialization itself is external. -/
inductive XNode where
  | ele (tag : String) (attrs : List (String × String)) (children : List XNode)

def XNode.tag : XNode → String
  | .ele t _ _ => t

def XNode.attrs : XNode → List (String × String)
  | .ele _ a _ => a

def XNode.childEles : XNode → List XNode
  | .ele _ _ cs => cs

/-- The attribute set of a `Definition` element per detail level (truthiness
checks as in the source). -/
def xmlAttrs (level : DetailLevel) (d : Definition) : List (String × String) :=
  [("type", d.type), ("name", d.name)] ++
  (if level ≠ DetailLevel.minimal then
    [("startLine", toString d.startLine), ("endLine", toString d.endLine)] ++
    (if optStrTruthy d.modifier then [("modifier", d.modifier.getD "")] else [])
  else []) ++
  (if level = DetailLevel.detailed then
    (if optStrTruthy d.dataType then [("dataType", d.dataType.getD "")] else []) ++
    (if optStrTruthy d.value && !(d.type == "variable") && !(d.type == "property") then
      [("value", d.value.getD "")] else []) ++
    (if optStrTruthy d.returnType then [("returnType", d.returnType.getD "")] else [])
  else [])

/-- The `Parameters` child element at `detailed` level. -/
def xmlParamsEles (level : DetailLevel) (d : Definition) : List XNode :=
  if level = DetailLevel.detailed then
    match d.parameters with
    | some ps =>
      if 0 < ps.length then
        [XNode.ele "Parameters" [] (ps.map (fun p =>
          XNode.ele "Parameter"
            ([("name", p.name)] ++
              (if optStrTruthy p.type then [("type", p.type.getD "")] else [])) []))]
      else []
    | none => []
  else []

/-- The `Calls` child element at `detailed` level. -/
def xmlCallsEles (level : DetailLevel) (d : Definition) : List XNode :=
  if level = DetailLevel.detailed then
    match d.calls with
    | some cs =>
      if 0 < cs.length then
        [XNode.ele "Calls" [] (cs.map (fun c => XNode.ele "Call" [("name", c)] []))]
      else []
    | none => []
  else []

/-- `renderDefinition` of `formatResultsXML`: emits the `Definition` element
and recurses through `children` in stored order (resolving each id against the
flat list, skipping missing ids).  `fuel` bounds the recursion depth; the JS
original recurses unboundedly. -/
def renderDefinitionXML : Nat → List Definition → DetailLevel → Definition → XNode
  | 0, _, level, d => XNode.ele "Definition" (xmlAttrs level d) []
  | fuel + 1, definitions, level, d =>
    XNode.ele "Definition" (xmlAttrs level d)
      (xmlParamsEles level d ++ xmlCallsEles level d ++
        (match d.children with
         | some cs =>
           if 0 < cs.length then
             cs.filterMap (fun childId =>
               (definitions.find? (fun x => x.id == some childId)).map
                 (renderDefinitionXML fuel definitions level))
           else []
         | none => []))

/-- `formatResultsXML` up to serialization: the `CodeScanResults` root wraps a
`File` element per entry, each rendering its top-level definitions (no truthy
`parentId`). -/
def formatResultsXML (fuel : Nat) (results : List (String × List Definition))
    (level : DetailLevel) : XNode :=
  XNode.ele "CodeScanResults" [] (results.map (fun pr =>
    XNode.ele "File" [("path", pr.1)]
      ((pr.2.filter (fun d => !(optStrTruthy d.parentId))).map
        (renderDefinitionXML fuel pr.2 level))))

/-- The detail block of the Markdown renderer at `detailed` level. -/
def mdDetailParts (d : Definition) : List String :=
  (if optStrTruthy d.dataType then ["DataType: `" ++ d.dataType.getD "" ++ "`"] else []) ++
  (if optStrTruthy d.value && !(d.type == "variable") && !(d.type == "property") then
    ["Value: `" ++ (d.value.getD "").take 50 ++
      (if 50 < (d.value.getD "").length then "..." else "") ++ "`"]
  else []) ++
  (match d.parameters with
   | some ps =>
     if 0 < ps.length then
       ["Params: " ++ String.intercalate ", " (ps.map (fun p =>
         "`" ++ p.name ++ (match p.type with | some t => ": " ++ t | none => "") ++ "`"))]
     else []
   | none => []) ++
  (if optStrTruthy d.returnType then ["Returns: `" ++ d.returnType.getD "" ++ "`"] else []) ++
  (match d.calls with
   | some cs =>
     if 0 < cs.length then ["Calls: `" ++ String.intercalate "`, `" cs ++ "`"] else []
   | none => [])

/-- The bullet text common to every Markdown detail level. -/
def mdMarker (d : Definition) : String :=
  "- **" ++ d.type.toUpper ++ "**: `" ++ d.name ++ "`"

/-- One rendered Markdown bullet line (without the trailing newline). -/
def mdDefLine (level : DetailLevel) (indent : Nat) (d : Definition) : String :=
  let indentation := String.join (List.replicate indent "  ")
  match level with
  | DetailLevel.minimal => indentation ++ mdMarker d
  | DetailLevel.standard =>
    let lineInfo := "(Lines: " ++ toString d.startLine ++ "-" ++ toString d.endLine ++ ")"
    let modifierText :=
      if optStrTruthy d.modifier then " [`" ++ d.modifier.getD "" ++ "`]" else ""
    indentation ++ mdMarker d ++ " " ++ lineInfo ++ modifierText
  | DetailLevel.detailed =>
    let lineInfo := "(Lines: " ++ toString d.startLine ++ "-" ++ toString d.endLine ++ ")"
    let modifierText :=
      if optStrTruthy d.modifier then " [`" ++ d.modifier.getD "" ++ "`]" else ""
    let parts := mdDetailParts d
    let detailText :=
      if 0 < parts.length then " \x7b " ++ String.intercalate "; " parts ++ " \x7d" else ""
    indentation ++ mdMarker d ++ " " ++ lineInfo ++ modifierText ++ detailText

/-- `renderDefinition` of `formatResultsMarkdown`: the bullet line, a newline,
then the children rendered recursively one indent level deeper. -/
def renderDefinitionMarkdown : Nat → List Definition → DetailLevel → Definition → Nat → String
  | 0, _, _, _, _ => ""
  | fuel + 1, definitions, level, d, indent =>
    mdDefLine level indent d ++ "\n" ++
    (match d.children with
     | some cs =>
       if 0 < cs.length then
         String.join (cs.map (fun childId =>
           match definitions.find? (fun x => x.id == some childId) with
           | some child => renderDefinitionMarkdown fuel definitions level child (indent + 1)
           | none => ""))
       else ""
     | none => "")

/-- `formatResultsMarkdown`: header, one `## File:` section per path in sorted
key order (rendering top-level definitions, or all of them at indent 1 when
none is top-level), then the optional metadata section.  `relative` models
`path.relative(directoryPath, ·)`. -/
def formatResultsMarkdown (fuel : Nat) (results : List (String × List Definition))
    (level : DetailLevel) (directoryPath : String) (relative : String → String) : String :=
  let header := "# Code Scan Results for " ++ directoryPath ++ "\n\n"
  let filePaths := stableSortBy (fun a b => decide (a ≤ b)) (results.map Prod.fst)
  let body := String.join (filePaths.map (fun fp =>
    match results.find? (fun pr => pr.1 == fp) with
    | none => ""
    | some pr =>
      let definitions := pr.2
      let fileHeader := "## File: `" ++ relative fp ++ "`\n\n"
      let topLevelDefs := definitions.filter (fun d => !(optStrTruthy d.parentId))
      let content :=
        if topLevelDefs.length == 0 && 0 < definitions.length then
          "  *(No top-level definitions found, listing all)*\n" ++
          String.join (definitions.map (fun d =>
            renderDefinitionMarkdown fuel definitions level d 1))
        else
          String.join (topLevelDefs.map (fun d =>
            renderDefinitionMarkdown fuel definitions level d 0))
      fileHeader ++ content ++ "\n"))
  let metaSection :=
    match results.find? (fun pr => pr.1 == "metadata") with
    | some pr =>
      if 0 < pr.2.length then
        "## Metadata\n\n" ++
        String.join (pr.2.map (fun meta => "- **" ++ meta.type ++ "**: " ++ meta.name ++ "\n")) ++
        "\n"
      else ""
    | none => ""
  header ++ body ++ metaSection

/-- The nested object produced by `createDefinitionObject` of
`formatResultsJSON` (fields `none` when the source leaves them out). -/
inductive JView where
  | obj (type name : String) (startLine endLine : Option Nat)
      (modifier dataType value returnType : Option String)
      (parameters : Option (List Parameter)) (calls : Option (List String))
      (children : Option (List JView))

def JView.objType : JView → String
  | .obj t _ _ _ _ _ _ _ _ _ _ => t

def JView.objName : JView → String
  | .obj _ n _ _ _ _ _ _ _ _ _ => n

def JView.objChildren : JView → Option (List JView)
  | .obj _ _ _ _ _ _ _ _ _ _ ch => ch

/-- `createDefinitionObject`: at `minimal` level only `type` and `name` are
emitted and the function returns before the children recursion; `standard`
and `detailed` add the remaining fields and recurse through `children`
(dropping unresolvable ids). -/
def createDefinitionObject : Nat → List Definition → DetailLevel → Definition → JView
  | 0, _, _, d => JView.obj d.type d.name none none none none none none none none none
  | fuel + 1, allDefs, level, d =>
    if level = DetailLevel.minimal then
      JView.obj d.type d.name none none none none none none none none none
    else
      JView.obj d.type d.name (some d.startLine) (some d.endLine)
        (if optStrTruthy d.modifier then d.modifier else none)
        (if level = DetailLevel.detailed ∧ optStrTruthy d.dataType then d.dataType else none)
        (if level = DetailLevel.detailed ∧ optStrTruthy d.value = true ∧
            d.type ≠ "variable" ∧ d.type ≠ "property" then d.value else none)
        (if level = DetailLevel.detailed ∧ optStrTruthy d.returnType then d.returnType
         else none)
        (if level = DetailLevel.detailed then
          match d.parameters with
          | some ps => if 0 < ps.length then some ps else none
          | none => none
         else none)
        (if level = DetailLevel.detailed then
          match d.calls with
          | some cs => if 0 < cs.length then some cs else none
          | none => none
         else none)
        (match d.children with
         | some cs =>
           if 0 < cs.length then
             some (cs.filterMap (fun childId =>
               (allDefs.find? (fun x => x.id == some childId)).map
                 (createDefinitionObject fuel allDefs level)))
           else none
         | none => none)

/-- `formatResultsJSON` up to `JSON.stringify`: per path, the top-level
definitions each converted by `createDefinitionObject`. -/
def formatResultsJSON (fuel : Nat) (results : List (String × List Definition))
    (level : DetailLevel) : List (String × List JView) :=
  results.map (fun pr =>
    (pr.1, (pr.2.filter (fun d => !(optStrTruthy d.parentId))).map
      (createDefinitionObject fuel pr.2 level)))

mutual
/-- An XML tree contains a `Definition` element whose `type`/`name`
attributes are those of `d`. -/
def xContainsDef (d : Definition) : XNode → Bool
  | .ele tag attrs cs =>
    (tag == "Definition" && attrs.contains ("type", d.type) && attrs.contains ("name", d.name))
    || xContainsDefList d cs

def xContainsDefList (d : Definition) : List XNode → Bool
  | [] => false
  | x :: xs => xContainsDef d x || xContainsDefList d xs
end

mutual
/-- A JSON view tree contains an object with `d`'s `type` and `name`. -/
def jContainsDef (d : Definition) : JView → Bool
  | .obj t n _ _ _ _ _ _ _ _ ch =>
    (t == d.type && n == d.name) ||
    (match ch with
     | some l => jContainsDefList d l
     | none => false)

def jContainsDefList (d : Definition) : List JView → Bool
  | [] => false
  | x :: xs => jContainsDef d x || jContainsDefList d xs
end

/-- Whether the JSON rendering of the whole result map contains an object for
`d`. -/
def jsonContainsDef (d : Definition) (out : List (String × List JView)) : Bool :=
  out.any (fun pr => jContainsDefList d pr.2)

/-- `ReachableFrom defs root e n`: starting at `root`, `e` is reached after
`n` child steps, each step resolving a stored child id against the flat list
exactly as the renderers do. -/
inductive ReachableFrom (defs : List Definition) : Definition → Definition → Nat → Prop
  | refl (d : Definition) : ReachableFrom defs d d 0
  | step {r c e : Definition} {cs : List String} {cid : String} {n : Nat} :
      r.children = some cs →
      cid ∈ cs →
      defs.find? (fun x => x.id == some cid) = some c →
      ReachableFrom defs c e n →
      ReachableFrom defs r e (n + 1)

/-- Root of the JSON-minimal counterexample scenario. -/
def c9root : Definition :=
  { id := some "def-0", type := "class", name := "Outer", startLine := 1, endLine := 8,
    children := some ["def-1"] }

/-- Child of the JSON-minimal counterexample scenario. -/
def c9child : Definition :=
  { id := some "def-1", type := "method", name := "inner", startLine := 2, endLine := 4,
    parentId := some "def-0", children := some [] }

/-- The per-file definitions of the JSON-minimal counterexample scenario. -/
def c9defs : List Definition := [c9root, c9child]

/-! ### Derived notions used in claim statements and proofs -/

/-- One step of the pre-filter `parentId` chain, resolved exactly as the
closure loop resolves parents: a truthy `parentId` looked up by id in the
original list (first match). -/
def parentLookup (defs : List Definition) (d : Definition) : Option Definition :=
  if optStrTruthy d.parentId then defs.find? (fun p => p.id == d.parentId) else none

/-- `ancestorChain defs d k`: the `k`-th ancestor of `d` along the pre-filter
`parentId` chain (`d` itself for `k = 0`). -/
def ancestorChain (defs : List Definition) (d : Definition) : Nat → Option Definition
  | 0 => some d
  | k + 1 =>
    match ancestorChain defs d k with
    | some a => parentLookup defs a
    | none => none

/-- Post-state of one processed worklist element: when its `parentId` is
truthy, either the parent id made it into the survivor set, or the parent
lookup could not add it (missing, falsy id, or excluded by name). -/
def processedOK (stripMod : String → String → Option String) (opts : FilterOptions)
    (copy : List Definition) (S : List (Option String)) (x : Definition) : Prop :=
  optStrTruthy x.parentId = true →
    (x.parentId ∈ S ∨
      match copy.find? (fun p => p.id == x.parentId) with
      | none => True
      | some par => optStrTruthy par.id = false ∨ parentExcluded stripMod opts par = true)

/-- The distinct truthy ids of a definition list. -/
def truthyIds (l : List Definition) : List String :=
  l.filterMap (fun x =>
    match x.id with
    | some s => if s.isEmpty then none else some s
    | none => none)

/-- Number of distinct truthy ids not yet processed (the termination measure of
the closure loop). -/
def unprocessedCount (copy : List Definition) (processed : List (Option String)) : Nat :=
  ((truthyIds copy).dedup.filter (fun s => decide (some s ∉ processed))).length

/-- Concrete syntax tree of the hierarchy counterexample: a `program`
containing class `A` (rows 0–2, its body ending in the `}` token at row 2
column 0) followed by class `B` (rows 2–10) containing method `m`. -/
def c2tree : SNode :=
  SNode.node "program" (0, 0) (10, 10) none
    [SNode.node "class_declaration" (0, 0) (2, 1) none
      [SNode.node "class_body" (0, 8) (2, 1) none
        [SNode.node "\x7d" (2, 0) (2, 1) none []]],
     SNode.node "class_declaration" (2, 2) (10, 1) none
      [SNode.node "class_body" (2, 10) (10, 1) none
        [SNode.node "method_definition" (2, 12) (8, 1) none []]]]

/-- Class `A` of the counterexample: lines 1–3. -/
def c2A : Definition :=
  { id := some "def-0", type := "class", name := "A", startLine := 1, endLine := 3,
    children := some [] }

/-- Class `B` of the counterexample: lines 3–11. -/
def c2B : Definition :=
  { id := some "def-1", type := "class", name := "B", startLine := 3, endLine := 11,
    children := some [] }

/-- Method `m` of the counterexample: lines 3–9 (column 12 of row 2, so the
node at `(row 2, column 0)` is the closing brace of class `A`). -/
def c2m : Definition :=
  { id := some "def-2", type := "method", name := "m", startLine := 3, endLine := 9,
    children := some [] }

/-- The definition list of the hierarchy counterexample. -/
def c2defs : List Definition := [c2A, c2B, c2m]

/-- Concrete class used by the ancestor-closure witness scenario. -/
def c1C : Definition :=
  { id := some "def-0", type := "class", name := "C", startLine := 1, endLine := 10,
    children := some ["def-1"] }

/-- Concrete method (child of `c1C`) of the ancestor-closure witness
scenario. -/
def c1M : Definition :=
  { id := some "def-1", type := "method", name := "m", startLine := 2, endLine := 5,
    parentId := some "def-0", children := some [] }

/-- The definition list of the ancestor-closure witness scenario. -/
def c1defs : List Definition := [c1C, c1M]

/-! ## Theorems -/

/-- The per-node increment of the traversal agrees with the declarative
decision-point predicate. -/
theorem nodeIncrement_eq_ite (t : String) (s e : Nat × Nat) (op : Option String)
    (cs : List SNode) :
    nodeIncrement t op =
      if isDecisionPointNode (SNode.node t s e op cs) = true then 1 else 0 := by
  unfold nodeIncrement isDecisionPointNode
  simp only [SNode.ntype, SNode.operator]
  cases h1 : decisionPointTypes.contains t with
  | false => simp [h1]
  | true =>
    cases h2 : (t == "binary_expression" || t == "boolean_operator") with
    | false => simp [h1, h2]
    | true =>
      cases op with
      | none => simp [h1, h2]
      | some o =>
        cases h3 : (o == "&&" || o == "||" || o == "and" || o == "or") with
        | false => simp [h1, h2, h3]
        | true => simp [h1, h2, h3]

mutual
/-- The accumulated increments equal the number of decision-point nodes in the
subtree. -/
theorem complexityIncrements_eq_countP :
    ∀ n : SNode,
      complexityIncrements n = (subtreeNodes n).countP (fun x => isDecisionPointNode x)
  | .node t s e op cs => by
    rw [complexityIncrements, subtreeNodes, List.countP_cons,
      complexityIncrementsList_eq_countP cs, nodeIncrement_eq_ite t s e op cs]
    omega

theorem complexityIncrementsList_eq_countP :
    ∀ l : List SNode,
      complexityIncrementsList l = (subtreeNodesList l).countP (fun x => isDecisionPointNode x)
  | [] => by rw [complexityIncrementsList, subtreeNodesList, List.countP_nil]
  | c :: cs => by
    rw [complexityIncrementsList, subtreeNodesList, List.countP_append,
      complexityIncrements_eq_countP c, complexityIncrementsList_eq_countP cs]
end

/-- C5: For every syntax subtree, the computed cyclomatic complexity is at
least 1, and for every subtree containing no decision-point node (no
conditional, loop, switch/match arm, ternary, catch clause, or AND/OR
operator) the complexity is exactly 1. -/
theorem claim_C5_complexity_floor :
    (∀ n : Option SNode, 1 ≤ calculateComplexity n) ∧
    (∀ t : SNode,
      ((subtreeNodes t).all (fun x => !isDecisionPointNode x)) = true →
      calculateComplexity (some t) = 1) := by
  constructor
  · intro n
    cases n with
    | none => exact le_refl 1
    | some t => exact Nat.le_add_right 1 (complexityIncrements t)
  · intro t ht
    have hz : (subtreeNodes t).countP (fun x => isDecisionPointNode x) = 0 := by
      rw [List.countP_eq_zero]
      intro a ha
      have := List.all_eq_true.mp ht a ha
      simpa using this
    show 1 + complexityIncrements t = 1
    rw [complexityIncrements_eq_countP t, hz]

/-- Witness for C5 at a concrete decision-free subtree. -/
theorem claim_C5_complexity_floor_witness :
    ((subtreeNodes (SNode.node "function_declaration" (0, 0) (0, 30) none
        [SNode.node "identifier" (0, 9) (0, 12) none [],
         SNode.node "statement_block" (0, 18) (0, 30) none
          [SNode.node "return_statement" (0, 20) (0, 28) none []]])).all
      (fun x => !isDecisionPointNode x)) = true ∧
    calculateComplexity (some (SNode.node "function_declaration" (0, 0) (0, 30) none
        [SNode.node "identifier" (0, 9) (0, 12) none [],
         SNode.node "statement_block" (0, 18) (0, 30) none
          [SNode.node "return_statement" (0, 20) (0, 28) none []]])) = 1 :=
  ⟨by decide, claim_C5_complexity_floor.2 _ (by decide)⟩

/-- C6: During complexity calculation, a `binary_expression` or
`boolean_operator` node increments the count iff its operator is one of `&&`,
`||`, `and`, `or`; any other operator contributes nothing; every other
decision-point node kind increments exactly once per occurrence (the total is
one per decision-point node of the subtree). -/
theorem claim_C6_decision_point_increments :
    (∀ n : SNode,
      calculateComplexity (some n) =
        1 + (subtreeNodes n).countP (fun x => isDecisionPointNode x)) ∧
    (∀ (t : String) (s e : Nat × Nat) (op : Option String) (cs : List SNode),
      (t = "binary_expression" ∨ t = "boolean_operator") →
      (isDecisionPointNode (SNode.node t s e op cs) = true ↔
        op = some "&&" ∨ op = some "||" ∨ op = some "and" ∨ op = some "or")) ∧
    (∀ (t : String) (s e : Nat × Nat) (op : Option String) (cs : List SNode),
      decisionPointTypes.contains t = true →
      t ≠ "binary_expression" → t ≠ "boolean_operator" →
      isDecisionPointNode (SNode.node t s e op cs) = true) := by
  refine ⟨?_, ?_, ?_⟩
  · intro n
    show 1 + complexityIncrements n = _
    rw [complexityIncrements_eq_countP n]
  · intro t s e op cs ht
    rcases ht with h | h <;> subst h <;>
      cases op with
      | none => simp [isDecisionPointNode, SNode.ntype, SNode.operator, decisionPointTypes]
      | some o =>
        simp [isDecisionPointNode, SNode.ntype, SNode.operator, decisionPointTypes]
        tauto
  · intro t s e op cs hmem hb1 hb2
    simp only [isDecisionPointNode, SNode.ntype, SNode.operator]
    have hb : (t == "binary_expression" || t == "boolean_operator") = false := by
      simp [hb1, hb2]
    have hmem2 : t ∈ decisionPointTypes := by simpa using hmem
    simp [hmem2, hb]

/-- Witness for C6 at a concrete `binary_expression` with operator `&&` and a
concrete `if_statement`. -/
theorem claim_C6_decision_point_increments_witness :
    calculateComplexity (some (SNode.node "if_statement" (0, 0) (2, 1) none
      [SNode.node "binary_expression" (0, 4) (0, 10) (some "&&") []])) =
      1 + (subtreeNodes (SNode.node "if_statement" (0, 0) (2, 1) none
        [SNode.node "binary_expression" (0, 4) (0, 10) (some "&&") []])).countP
          (fun x => isDecisionPointNode x) ∧
    (isDecisionPointNode (SNode.node "binary_expression" (0, 4) (0, 10) (some "&&") []) = true ↔
      some "&&" = some "&&" ∨ some "&&" = some "||" ∨
      some "&&" = some "and" ∨ some "&&" = some "or") ∧
    isDecisionPointNode (SNode.node "catch_clause" (3, 0) (5, 1) none []) = true :=
  ⟨claim_C6_decision_point_increments.1 _,
   claim_C6_decision_point_increments.2.1 "binary_expression" (0, 4) (0, 10)
     (some "&&") [] (Or.inl rfl),
   claim_C6_decision_point_increments.2.2 "catch_clause" (3, 0) (5, 1) none []
     (by decide) (by decide) (by decide)⟩

/-! ### Stable sort lemmas -/

theorem insertOrdered_perm {α : Type} (le : α → α → Bool) (x : α) :
    ∀ l : List α, (insertOrdered le x l).Perm (x :: l)
  | [] => List.Perm.refl _
  | y :: ys => by
    rw [insertOrdered]
    by_cases h : le x y = true
    · rw [if_pos h]
    · rw [if_neg h]
      exact ((insertOrdered_perm le x ys).cons y).trans (List.Perm.swap x y ys)

theorem stableSortBy_perm {α : Type} (le : α → α → Bool) :
    ∀ l : List α, (stableSortBy le l).Perm l
  | [] => List.Perm.refl _
  | x :: xs => by
    rw [stableSortBy]
    exact (insertOrdered_perm le x (stableSortBy le xs)).trans
      ((stableSortBy_perm le xs).cons x)

theorem mem_stableSortBy {α : Type} {le : α → α → Bool} {a : α} {l : List α} :
    a ∈ stableSortBy le l ↔ a ∈ l :=
  (stableSortBy_perm le l).mem_iff

theorem insertOrdered_pairwise {α : Type} {le : α → α → Bool}
    (htot : ∀ a b, le a b = true ∨ le b a = true)
    (htrans : ∀ a b c, le a b = true → le b c = true → le a c = true) (x : α) :
    ∀ l : List α, l.Pairwise (fun a b => le a b = true) →
      (insertOrdered le x l).Pairwise (fun a b => le a b = true)
  | [], _ => List.pairwise_singleton _ x
  | y :: ys, h => by
    rw [insertOrdered]
    rcases List.pairwise_cons.mp h with ⟨hy, hys⟩
    by_cases hle : le x y = true
    · rw [if_pos hle]
      refine List.pairwise_cons.mpr ⟨?_, h⟩
      intro z hz
      rcases List.mem_cons.mp hz with rfl | hz
      · exact hle
      · exact htrans x y z hle (hy z hz)
    · rw [if_neg hle]
      refine List.pairwise_cons.mpr ⟨?_, insertOrdered_pairwise htot htrans x ys hys⟩
      intro z hz
      have hz2 : z ∈ x :: ys := (insertOrdered_perm le x ys).mem_iff.mp hz
      rcases List.mem_cons.mp hz2 with rfl | hz2
      · rcases htot z y with h1 | h1
        · exact absurd h1 hle
        · exact h1
      · exact hy z hz2

theorem stableSortBy_pairwise {α : Type} {le : α → α → Bool}
    (htot : ∀ a b, le a b = true ∨ le b a = true)
    (htrans : ∀ a b c, le a b = true → le b c = true → le a c = true) :
    ∀ l : List α, (stableSortBy le l).Pairwise (fun a b => le a b = true)
  | [] => List.Pairwise.nil
  | x :: xs => by
    rw [stableSortBy]
    exact insertOrdered_pairwise htot htrans x _ (stableSortBy_pairwise htot htrans xs)

theorem filter_insertOrdered_of_neg {α : Type} {le : α → α → Bool} {p : α → Bool}
    {x : α} (hx : p x = false) :
    ∀ l : List α, (insertOrdered le x l).filter p = l.filter p
  | [] => by simp [insertOrdered, hx]
  | y :: ys => by
    rw [insertOrdered]
    by_cases hle : le x y = true
    · rw [if_pos hle]
      simp [List.filter_cons, hx]
    · rw [if_neg hle]
      by_cases hy : p y = true
      · simp [List.filter_cons, hy, filter_insertOrdered_of_neg hx ys]
      · simp only [Bool.not_eq_true] at hy
        simp [List.filter_cons, hy, filter_insertOrdered_of_neg hx ys]

theorem filter_insertOrdered_key {α : Type} {le : α → α → Bool} {k : α → Nat}
    (hk : ∀ a b, le a b = decide (k a ≤ k b)) (x : α) :
    ∀ l : List α, l.Pairwise (fun a b => le a b = true) →
      (insertOrdered le x l).filter (fun a => decide (k a = k x)) =
        x :: l.filter (fun a => decide (k a = k x))
  | [], _ => by simp [insertOrdered]
  | y :: ys, h => by
    rw [insertOrdered]
    by_cases hle : le x y = true
    · rw [if_pos hle]
      simp [List.filter_cons]
    · rw [if_neg hle]
      have hlt : ¬(k x ≤ k y) := by
        intro hc
        exact hle (by rw [hk]; exact decide_eq_true hc)
      have hne : ¬(k y = k x) := by omega
      rcases List.pairwise_cons.mp h with ⟨-, hys⟩
      simp only [List.filter_cons, decide_eq_true_eq, if_neg hne]
      exact filter_insertOrdered_key hk x ys hys

theorem stableSortBy_filter_key {α : Type} {le : α → α → Bool} {k : α → Nat}
    (hk : ∀ a b, le a b = decide (k a ≤ k b))
    (htot : ∀ a b, le a b = true ∨ le b a = true)
    (htrans : ∀ a b c, le a b = true → le b c = true → le a c = true) (n : Nat) :
    ∀ l : List α,
      (stableSortBy le l).filter (fun a => decide (k a = n)) =
        l.filter (fun a => decide (k a = n))
  | [] => rfl
  | x :: xs => by
    rw [stableSortBy]
    by_cases hn : k x = n
    · subst hn
      rw [filter_insertOrdered_key hk x _ (stableSortBy_pairwise htot htrans xs),
        stableSortBy_filter_key hk htot htrans (k x) xs]
      simp [List.filter_cons]
    · have hx : (fun a => decide (k a = n)) x = false := by
        simp [hn]
      rw [@filter_insertOrdered_of_neg α le (fun a => decide (k a = n)) x hx
        (stableSortBy le xs), stableSortBy_filter_key hk htot htrans n xs]
      simp [List.filter_cons, hn]

/-! ### The filter engine never mutates its input (C10) -/

theorem take_set_of_le {α : Type} :
    ∀ (l : List α) (a : Nat) (v : α) (n : Nat), n ≤ a → (l.set a v).take n = l.take n
  | [], _, _, _, _ => rfl
  | _ :: _, 0, _, _, h => by
    have hn : (0 : Nat) = _ := (Nat.le_zero.mp h).symm
    rw [← hn]
    rfl
  | x :: xs, a + 1, v, n, h => by
    cases n with
    | zero => rfl
    | succ n =>
      rw [List.set_cons_succ, List.take_succ_cons, List.take_succ_cons,
        take_set_of_le xs a v n (Nat.le_of_succ_le_succ h)]

theorem foldl_set_take_eq {n : Nat}
    (step : List Definition → Nat → List Definition)
    (hstep : ∀ h a, n ≤ a → (step h a).take n = h.take n) :
    ∀ (addrs : List Nat), (∀ a ∈ addrs, n ≤ a) →
      ∀ h : List Definition, (addrs.foldl step h).take n = h.take n
  | [], _, h => rfl
  | a :: rest, haddr, h => by
    rw [List.foldl_cons,
      foldl_set_take_eq step hstep rest (fun b hb => haddr b (List.mem_cons_of_mem a hb)),
      hstep h a (haddr a (List.mem_cons_self a rest))]

/-- C10: `applyFiltersToDefinitions` operates on a deep copy: after the call
every definition slot of the caller's input list is unchanged in all fields
(the heap restricted to the input addresses equals the input). -/
theorem claim_C10_no_input_mutation
    (stripMod : String → String → Option String) (input : List Definition)
    (opts : FilterOptions) :
    (applyFiltersToDefinitionsHeap stripMod input opts).1 = input := by
  unfold applyFiltersToDefinitionsHeap
  simp only []
  have haddr : ∀ a ∈ (List.range' input.length input.length).filter (fun a =>
      match (input ++ input).get? a with
      | some d => optStrTruthy d.id && decide (d.id ∈ filterSurvivorIds stripMod input opts)
      | none => false), input.length ≤ a := by
    intro a ha
    have := (List.mem_filter.mp ha).1
    rcases List.mem_range'.mp this with ⟨i, -, rfl⟩
    omega
  rw [foldl_set_take_eq _ ?hstep _ haddr]
  · exact List.take_left input input
  case hstep =>
    intro h a hna
    cases h.get? a with
    | none => rfl
    | some d => exact take_set_of_le h a _ input.length hna

/-! ### Call extraction (C8) -/

/-- The accumulation over matches equals the accumulation over the extracted
names. -/
theorem collectCalledNames_eq_foldl :
    ∀ (ms : List (List (String × String))) (acc : List String),
      ms.foldl (fun acc m =>
        match findCallName m with
        | some t => if acc.contains t then acc else acc ++ [t]
        | none => acc) acc =
      (ms.filterMap findCallName).foldl
        (fun acc t => if acc.contains t then acc else acc ++ [t]) acc
  | [], _ => rfl
  | m :: rest, acc => by
    rw [List.foldl_cons, List.filterMap_cons]
    cases findCallName m with
    | none => exact collectCalledNames_eq_foldl rest acc
    | some t => rw [List.foldl_cons]; exact collectCalledNames_eq_foldl rest _

/-- First-seen-order deduplicating fold: invariant characterization. -/
theorem dedupFoldl_spec :
    ∀ (suf acc pre : List String),
      acc.Nodup → (∀ x, x ∈ acc ↔ x ∈ pre) →
      acc.Pairwise (fun a b => (pre ++ suf).indexOf a < (pre ++ suf).indexOf b) →
      (suf.foldl (fun acc t => if acc.contains t then acc else acc ++ [t]) acc).Nodup ∧
      (∀ x, x ∈ suf.foldl (fun acc t => if acc.contains t then acc else acc ++ [t]) acc ↔
        x ∈ pre ++ suf) ∧
      (suf.foldl (fun acc t => if acc.contains t then acc else acc ++ [t]) acc).Pairwise
        (fun a b => (pre ++ suf).indexOf a < (pre ++ suf).indexOf b)
  | [], acc, pre, hnd, hmem, hpw => by
    refine ⟨hnd, ?_, hpw⟩
    intro x
    rw [List.foldl_nil, List.append_nil]
    exact hmem x
  | t :: rest, acc, pre, hnd, hmem, hpw => by
    rw [List.foldl_cons]
    have happ : pre ++ t :: rest = (pre ++ [t]) ++ rest := by
      simp
    by_cases hc : acc.contains t = true
    · have htacc : t ∈ acc := by simpa using hc
      rw [if_pos hc, happ]
      refine dedupFoldl_spec rest acc (pre ++ [t]) hnd ?_ ?_
      · intro x
        constructor
        · intro h
          exact List.mem_append.mpr (Or.inl ((hmem x).mp h))
        · intro h
          rcases List.mem_append.mp h with h | h
          · exact (hmem x).mpr h
          · rw [List.mem_singleton] at h
            subst h
            exact htacc
      · rw [← happ]
        exact hpw
    · have htacc : t ∉ acc := by
        intro h
        exact hc (by simpa using h)
      have htpre : t ∉ pre := fun h => htacc ((hmem t).mpr h)
      rw [if_neg hc, happ]
      refine dedupFoldl_spec rest (acc ++ [t]) (pre ++ [t]) ?_ ?_ ?_
      · refine List.Nodup.append hnd (List.nodup_singleton t) ?_
        intro a ha hb
        rw [List.mem_singleton] at hb
        subst hb
        exact htacc ha
      · intro x
        simp only [List.mem_append, List.mem_singleton, hmem x]
      · rw [← happ]
        rw [List.pairwise_append]
        refine ⟨hpw, List.pairwise_singleton _ t, ?_⟩
        intro a ha b hb
        rw [List.mem_singleton] at hb
        rw [hb]
        have hapre : a ∈ pre := (hmem a).mp ha
        have h1 : (pre ++ t :: rest).indexOf a = pre.indexOf a :=
          List.indexOf_append_of_mem hapre
        have h2 : (pre ++ t :: rest).indexOf t = pre.length + (t :: rest).indexOf t :=
          List.indexOf_append_of_not_mem htpre
        rw [h1, h2, List.indexOf_cons_self]
        have := List.indexOf_lt_length.mpr hapre
        omega

/-- C8: The `calls` field, when produced, is a duplicate-free list of callee
names in first-seen order; it is omitted when no calls are found; and a failed
call query leaves the enclosing definition intact with no `calls` field. -/
theorem claim_C8_calls_field (d : Definition)
    (outcome : Option (List (List (String × String)))) :
    (outcome = none → attachCalls d outcome = d) ∧
    (∀ ms, outcome = some ms →
      (ms.filterMap findCallName = [] → attachCalls d outcome = d) ∧
      (ms.filterMap findCallName ≠ [] →
        ∃ l, attachCalls d outcome = { d with calls := some l } ∧
          l.Nodup ∧ (∀ x, x ∈ l ↔ x ∈ ms.filterMap findCallName) ∧
          l.Pairwise (fun a b =>
            (ms.filterMap findCallName).indexOf a <
              (ms.filterMap findCallName).indexOf b))) := by
  constructor
  · intro h
    subst h
    rfl
  · intro ms h
    subst h
    have hkey := dedupFoldl_spec (ms.filterMap findCallName) [] [] List.nodup_nil
      (by simp) (by simp)
    rw [List.nil_append] at hkey
    have hcoll : collectCalledNames ms =
        (ms.filterMap findCallName).foldl
          (fun acc t => if acc.contains t then acc else acc ++ [t]) [] :=
      collectCalledNames_eq_foldl ms []
    constructor
    · intro hnil
      have hcnil : collectCalledNames ms = [] := by
        rw [hcoll, hnil]
        rfl
      show attachCalls d (some ms) = d
      simp [attachCalls, extractCalls, hcnil]
    · intro hne
      have hcne : collectCalledNames ms ≠ [] := by
        rcases List.exists_mem_of_ne_nil _ hne with ⟨x, hx⟩
        intro h0
        have hx2 : x ∈ collectCalledNames ms := by
          rw [hcoll]
          exact (hkey.2.1 x).mpr hx
        rw [h0] at hx2
        exact List.not_mem_nil x hx2
      have hpos : 0 < (collectCalledNames ms).length := List.length_pos.mpr hcne
      refine ⟨collectCalledNames ms, ?_, ?_, ?_, ?_⟩
      · show attachCalls d (some ms) = _
        simp [attachCalls, extractCalls, hpos]
      · rw [hcoll]; exact hkey.1
      · intro x
        rw [hcoll]
        exact hkey.2.1 x
      · rw [hcoll]
        exact hkey.2.2

/-! ### Per-file failure degradation (C4) -/

/-- C4 counterexample (to the claim as stated): a file of unsupported type
degrades to the single in-band error definition, yet the definition-filter
stage of `performScan` then omits the file from the scan output entirely
(`filterScanResults` drops every file with no non-`error` definition), so the
output does not represent the file by the error definition. -/
theorem claim_C4_counterexample :
    parseCodeWithTreeSitterShell ".zzz" "a.zzz" true false [] =
      [errorDefinition "Unsupported file type"] ∧
    filterScanResults (fun _ _ => none) (fun s => s)
      [("a.zzz", parseCodeWithTreeSitterShell ".zzz" "a.zzz" true false [])] {} = [] := by
  exact ⟨rfl, rfl⟩

/-- C4 (amended): unsupported extension, parse failure and missing query set
each yield exactly one `error` definition with zero line range and nothing
else; the multi-file scan continues past such a file (other files are
unaffected); but the file itself is then omitted from the scan output, because
only files with at least one non-`error` definition after filtering are kept. -/
theorem claim_C4_error_degradation (ext fp : String) (isSelf : Bool)
    (mainResult : List Definition) (stripMod : String → String → Option String)
    (relpath : String → String) (p : String) (ds : List Definition)
    (results : List (String × List Definition)) (opts : FilterOptions) :
    (languageMapExts.contains ext = false →
      parseCodeWithTreeSitterShell ext fp true isSelf mainResult =
        [errorDefinition "Unsupported file type"]) ∧
    (languageMapExts.contains ext = true →
      parseCodeWithTreeSitterShell ext fp false isSelf mainResult =
        [errorDefinition (if isSelf then "Failed to parse self (" ++ fp ++ ")"
          else "Failed to parse " ++ fp)]) ∧
    (languageMapExts.contains ext = true → queriesExts.contains ext = false →
      parseCodeWithTreeSitterShell ext fp true isSelf mainResult =
        [errorDefinition "No queries defined for file type"]) ∧
    (∀ s, (errorDefinition s).type = "error" ∧ (errorDefinition s).startLine = 0 ∧
      (errorDefinition s).endLine = 0) ∧
    (hasRealDefinitions (applyFiltersToDefinitions stripMod ds opts) = false →
      filterScanResults stripMod relpath ((p, ds) :: results) opts =
        filterScanResults stripMod relpath results opts) ∧
    (∀ s, applyFiltersToDefinitions stripMod [errorDefinition s] opts = [errorDefinition s] ∧
      filterScanResults stripMod relpath [(p, [errorDefinition s])] opts = []) := by
  refine ⟨?_, ?_, ?_, ?_, ?_, ?_⟩
  · intro h
    unfold parseCodeWithTreeSitterShell
    rw [h]
    rfl
  · intro h
    unfold parseCodeWithTreeSitterShell
    rw [h]
    cases isSelf <;> rfl
  · intro h1 h2
    unfold parseCodeWithTreeSitterShell
    rw [h1, h2]
    rfl
  · intro s
    exact ⟨rfl, rfl, rfl⟩
  · intro h
    unfold filterScanResults
    rw [List.filterMap_cons]
    simp only [h]
    rfl
  · intro s
    refine ⟨rfl, ?_⟩
    rfl

/-- Witness for the amended C4 at concrete inputs (including the real `.jsx`
extension, which has a language but no query set). -/
theorem claim_C4_error_degradation_witness :
    parseCodeWithTreeSitterShell ".zzz" "b.zzz" true false [] =
      [errorDefinition "Unsupported file type"] ∧
    parseCodeWithTreeSitterShell ".ts" "src/index.ts" false true [] =
      [errorDefinition (if true then "Failed to parse self (" ++ "src/index.ts" ++ ")"
        else "Failed to parse " ++ "src/index.ts")] ∧
    parseCodeWithTreeSitterShell ".jsx" "c.jsx" true false [] =
      [errorDefinition "No queries defined for file type"] ∧
    applyFiltersToDefinitions (fun _ _ => none) [errorDefinition "Unsupported file type"] {} =
      [errorDefinition "Unsupported file type"] ∧
    filterScanResults (fun _ _ => none) (fun s => s)
      [("b.zzz", [errorDefinition "Unsupported file type"])] {} = [] :=
  ⟨(claim_C4_error_degradation ".zzz" "b.zzz" false [] (fun _ _ => none) (fun s => s)
      "b.zzz" [] [] {}).1 (by decide),
   (claim_C4_error_degradation ".ts" "src/index.ts" true [] (fun _ _ => none) (fun s => s)
      "src/index.ts" [] [] {}).2.1 (by decide),
   (claim_C4_error_degradation ".jsx" "c.jsx" false [] (fun _ _ => none) (fun s => s)
      "c.jsx" [] [] {}).2.2.1 (by decide) (by decide),
   ((claim_C4_error_degradation ".zzz" "b.zzz" false [] (fun _ _ => none) (fun s => s)
      "b.zzz" [] [] {}).2.2.2.2.2 "Unsupported file type").1,
   ((claim_C4_error_degradation ".zzz" "b.zzz" false [] (fun _ _ => none) (fun s => s)
      "b.zzz" [] [] {}).2.2.2.2.2 "Unsupported file type").2⟩

/-- Witness for C8 at a concrete match list with a duplicate and an unrelated
capture. -/
theorem claim_C8_calls_field_witness :
    (attachCalls { type := "function", name := "f", startLine := 1, endLine := 3 } none =
      { type := "function", name := "f", startLine := 1, endLine := 3 }) ∧
    (∃ l,
      attachCalls { type := "function", name := "f", startLine := 1, endLine := 3 }
        (some [[("call_name", "foo")], [("other", "x")], [("call_name", "bar")],
          [("call_name", "foo")]]) =
        { type := "function", name := "f", startLine := 1, endLine := 3,
          calls := some l } ∧
      l.Nodup ∧
      (∀ x, x ∈ l ↔ x ∈ ([[("call_name", "foo")], [("other", "x")],
        [("call_name", "bar")], [("call_name", "foo")]].filterMap findCallName)) ∧
      l.Pairwise (fun a b =>
        ([[("call_name", "foo")], [("other", "x")], [("call_name", "bar")],
          [("call_name", "foo")]].filterMap findCallName).indexOf a <
        ([[("call_name", "foo")], [("other", "x")], [("call_name", "bar")],
          [("call_name", "foo")]].filterMap findCallName).indexOf b)) :=
  ⟨(claim_C8_calls_field _ none).1 rfl,
   (by
    have h := ((claim_C8_calls_field
      { type := "function", name := "f", startLine := 1, endLine := 3 }
      (some [[("call_name", "foo")], [("other", "x")], [("call_name", "bar")],
        [("call_name", "foo")]])).2 _ rfl).2 (by decide)
    rcases h with ⟨l, h1, h2, h3, h4⟩
    exact ⟨l, h1, h2, h3, h4⟩)⟩

/-! ### Invalid-regex asymmetry (C3) -/

/-- An invalid `namePattern` makes the basic predicate fail closed. -/
theorem basicFilterPred_namePattern_invalid (opts : FilterOptions)
    (h : opts.namePattern = some none) (d : Definition) :
    basicFilterPred opts d = false := by
  unfold basicFilterPred
  rw [h]
  simp

/-- With an invalid `excludeNamePattern` the basic predicate behaves exactly as
with no `excludeNamePattern` at all. -/
theorem basicFilterPred_excludeNamePattern_invalid (opts : FilterOptions)
    (h : opts.excludeNamePattern = some none) (d : Definition) :
    basicFilterPred opts d =
      basicFilterPred { opts with excludeNamePattern := none } d := by
  unfold basicFilterPred
  rw [h]

/-- With an invalid `excludeNamePattern` the ancestor-walk exclusion is a
no-op, as with no pattern. -/
theorem parentExcluded_excludeNamePattern_invalid
    (stripMod : String → String → Option String) (opts : FilterOptions)
    (h : opts.excludeNamePattern = some none) (p : Definition) :
    parentExcluded stripMod opts p =
      parentExcluded stripMod { opts with excludeNamePattern := none } p := by
  unfold parentExcluded
  rw [h]

/-- The closure loop depends on the filter options only through
`parentExcluded`. -/
theorem closureLoop_congr (stripMod : String → String → Option String)
    (opts1 opts2 : FilterOptions) (copy : List Definition)
    (hpe : ∀ p, parentExcluded stripMod opts1 p = parentExcluded stripMod opts2 p) :
    ∀ (fuel : Nat) (work : List Definition) (processed S : List (Option String)),
      closureLoop stripMod opts1 copy fuel work processed S =
        closureLoop stripMod opts2 copy fuel work processed S := by
  intro fuel
  induction fuel with
  | zero => intro work processed S; rfl
  | succ fuel ih =>
    intro work processed S
    cases work with
    | nil => rfl
    | cons current rest =>
      simp only [closureLoop, hpe, ih]

/-- C3: an invalid `namePattern` regex fails closed (every non-error,
non-metadata definition is excluded from the basic survivor set and the final
output is just the reattached meta entries, sorted), while an invalid
`excludeNamePattern` regex fails open (the whole filter behaves exactly as if
the option were absent; all remaining conditions still apply, ANDed). -/
theorem claim_C3_regex_asymmetry (stripMod : String → String → Option String)
    (defs : List Definition) (opts : FilterOptions) :
    (opts.namePattern = some none →
      basicFilteredEntries opts defs = [] ∧
      applyFiltersToDefinitions stripMod defs opts =
        stableSortBy defLineLe (metaEntriesOf defs)) ∧
    (opts.excludeNamePattern = some none →
      applyFiltersToDefinitions stripMod defs opts =
        applyFiltersToDefinitions stripMod defs
          { opts with excludeNamePattern := none }) := by
  constructor
  · intro h
    have hbf : basicFilteredEntries opts defs = [] := by
      unfold basicFilteredEntries
      refine List.filter_eq_nil_iff.mpr ?_
      intro a _
      simp [basicFilterPred_namePattern_invalid opts h a]
    refine ⟨hbf, ?_⟩
    have hS : filterSurvivorIds stripMod defs opts = [] := by
      unfold filterSurvivorIds
      rw [hbf]
      simp only [List.reverse_nil, List.map_nil, List.length_nil, Nat.add_zero]
      rfl
    have hres : defs.filter (fun d => optStrTruthy d.id &&
        decide (d.id ∈ filterSurvivorIds stripMod defs opts)) = [] := by
      refine List.filter_eq_nil_iff.mpr ?_
      intro a _
      rw [hS]
      simp
    unfold applyFiltersToDefinitions
    by_cases he : defs.isEmpty
    · rw [if_pos he]
      have : defs = [] := by
        cases defs with
        | nil => rfl
        | cons x xs => simp [List.isEmpty] at he
      subst this
      rfl
    · rw [if_neg he]
      unfold filterPrepared
      rw [hres]
      simp
  · intro h
    have hpred : ∀ d, basicFilterPred opts d =
        basicFilterPred { opts with excludeNamePattern := none } d :=
      basicFilterPred_excludeNamePattern_invalid opts h
    have hbf : basicFilteredEntries opts defs =
        basicFilteredEntries { opts with excludeNamePattern := none } defs := by
      unfold basicFilteredEntries
      exact List.filter_congr (fun d _ => hpred d)
    have hpe := parentExcluded_excludeNamePattern_invalid stripMod opts h
    have hS : filterSurvivorIds stripMod defs opts =
        filterSurvivorIds stripMod defs { opts with excludeNamePattern := none } := by
      unfold filterSurvivorIds
      rw [hbf, closureLoop_congr stripMod opts { opts with excludeNamePattern := none }
        defs hpe]
    unfold applyFiltersToDefinitions filterPrepared
    rw [hS]

/-- Witness for C3 at a concrete definition list and concrete invalid
patterns. -/
theorem claim_C3_regex_asymmetry_witness :
    (basicFilteredEntries { namePattern := some none }
      [{ id := some "def-0", type := "function", name := "fn",
         startLine := 1, endLine := 2 }] = [] ∧
     applyFiltersToDefinitions (fun _ _ => none)
      [{ id := some "def-0", type := "function", name := "fn",
         startLine := 1, endLine := 2 }] { namePattern := some none } =
      stableSortBy defLineLe (metaEntriesOf
        [{ id := some "def-0", type := "function", name := "fn",
           startLine := 1, endLine := 2 }])) ∧
    (applyFiltersToDefinitions (fun _ _ => none)
      [{ id := some "def-0", type := "function", name := "fn",
         startLine := 1, endLine := 2 }] { excludeNamePattern := some none } =
     applyFiltersToDefinitions (fun _ _ => none)
      [{ id := some "def-0", type := "function", name := "fn",
         startLine := 1, endLine := 2 }]
      { ({ excludeNamePattern := some none } : FilterOptions) with
          excludeNamePattern := none }) :=
  ⟨(claim_C3_regex_asymmetry (fun _ _ => none)
      [{ id := some "def-0", type := "function", name := "fn",
         startLine := 1, endLine := 2 }] { namePattern := some none }).1 rfl,
   (claim_C3_regex_asymmetry (fun _ _ => none)
      [{ id := some "def-0", type := "function", name := "fn",
         startLine := 1, endLine := 2 }] { excludeNamePattern := some none }).2 rfl⟩

/-! ### Materialization invariants of the filter output (C7) -/

theorem repointDefinition_id (fi : List (Option String)) (d : Definition) :
    (repointDefinition fi d).id = d.id := rfl

theorem repointDefinition_type (fi : List (Option String)) (d : Definition) :
    (repointDefinition fi d).type = d.type := rfl

theorem repointDefinition_children (fi : List (Option String)) (d : Definition) :
    (repointDefinition fi d).children =
      d.children.map (fun cs => cs.filter (fun cid => decide (some cid ∈ fi))) := rfl

theorem repointDefinition_parentId (fi : List (Option String)) (d : Definition) :
    (repointDefinition fi d).parentId =
      match d.parentId with
      | some p => if !p.isEmpty ∧ some p ∉ fi then none else some p
      | none => none := rfl

/-- Membership in the filter output is membership in the pre-sort list. -/
theorem mem_applyFilters {x : Definition} {stripMod : String → String → Option String}
    {defs : List Definition} {opts : FilterOptions} :
    x ∈ applyFiltersToDefinitions stripMod defs opts ↔
      x ∈ filterPrepared stripMod defs opts := by
  unfold applyFiltersToDefinitions
  by_cases he : defs.isEmpty
  · rw [if_pos he]
    have hd : defs = [] := by
      cases defs with
      | nil => rfl
      | cons a l => simp [List.isEmpty] at he
    subst hd
    unfold filterPrepared metaEntriesOf
    simp
  · rw [if_neg he]
    exact mem_stableSortBy

theorem defLineLe_total (a b : Definition) : defLineLe a b = true ∨ defLineLe b a = true := by
  unfold defLineLe
  rcases Nat.le_total a.startLine b.startLine with h | h
  · exact Or.inl (by simpa using h)
  · exact Or.inr (by simpa using h)

theorem defLineLe_trans (a b c : Definition) :
    defLineLe a b = true → defLineLe b c = true → defLineLe a c = true := by
  unfold defLineLe
  intro h1 h2
  simp only [decide_eq_true_eq] at h1 h2 ⊢
  omega

/-- C7: the final filtered list has no dangling child id and no dangling
truthy `parentId` (cleared links point back into the list), error/metadata
entries are reattached unchanged, and the whole list is the stable sort by
`startLine` of the materialized list. -/
theorem claim_C7_materialization (stripMod : String → String → Option String)
    (defs : List Definition) (opts : FilterOptions) :
    (∀ d ∈ applyFiltersToDefinitions stripMod defs opts, isMetaType d.type = false →
      ∀ cs, d.children = some cs → ∀ cid ∈ cs,
        ∃ e ∈ applyFiltersToDefinitions stripMod defs opts, e.id = some cid) ∧
    (∀ d ∈ applyFiltersToDefinitions stripMod defs opts, isMetaType d.type = false →
      ∀ p, d.parentId = some p → p.isEmpty = false →
        ∃ e ∈ applyFiltersToDefinitions stripMod defs opts, e.id = some p) ∧
    (∀ m ∈ defs, isMetaType m.type = true →
      m ∈ applyFiltersToDefinitions stripMod defs opts) ∧
    (applyFiltersToDefinitions stripMod defs opts).Pairwise
      (fun a b => a.startLine ≤ b.startLine) ∧
    (∀ n, (applyFiltersToDefinitions stripMod defs opts).filter
        (fun d => decide (d.startLine = n)) =
      (if defs.isEmpty then [] else filterPrepared stripMod defs opts).filter
        (fun d => decide (d.startLine = n))) := by
  refine ⟨?_, ?_, ?_, ?_, ?_⟩
  · intro d hd hmeta cs hcs cid hcid
    have hd2 : d ∈ filterPrepared stripMod defs opts := mem_applyFilters.mp hd
    unfold filterPrepared at hd2
    rcases List.mem_append.mp hd2 with hmem | hmem
    · have := (List.mem_filter.mp hmem).2
      rw [hmeta] at this
      cases this
    · rcases List.mem_map.mp hmem with ⟨d0, hd0, rfl⟩
      rw [repointDefinition_children] at hcs
      rcases Option.map_eq_some'.mp hcs with ⟨cs0, hcs0, hcsf⟩
      have hcid2 : cid ∈ cs0.filter (fun cid => decide (some cid ∈
          (defs.filter (fun d => optStrTruthy d.id &&
            decide (d.id ∈ filterSurvivorIds stripMod defs opts))).map Definition.id)) := by
        rw [← hcsf] at hcid
        exact hcid
      have hfin := (List.mem_filter.mp hcid2).2
      rw [decide_eq_true_eq] at hfin
      rcases List.mem_map.mp hfin with ⟨e0, he0, heid⟩
      refine ⟨repointDefinition ((defs.filter (fun d => optStrTruthy d.id &&
        decide (d.id ∈ filterSurvivorIds stripMod defs opts))).map Definition.id) e0,
        ?_, ?_⟩
      · apply mem_applyFilters.mpr
        unfold filterPrepared
        exact List.mem_append.mpr (Or.inr (List.mem_map.mpr ⟨e0, he0, rfl⟩))
      · rw [repointDefinition_id]
        exact heid
  · intro d hd hmeta p hp hpe
    have hd2 : d ∈ filterPrepared stripMod defs opts := mem_applyFilters.mp hd
    unfold filterPrepared at hd2
    rcases List.mem_append.mp hd2 with hmem | hmem
    · have := (List.mem_filter.mp hmem).2
      rw [hmeta] at this
      cases this
    · rcases List.mem_map.mp hmem with ⟨d0, hd0, rfl⟩
      have hfin : some p ∈ (defs.filter (fun d => optStrTruthy d.id &&
          decide (d.id ∈ filterSurvivorIds stripMod defs opts))).map Definition.id := by
        cases hdp : d0.parentId with
        | none =>
          have hnone : (repointDefinition ((defs.filter (fun d => optStrTruthy d.id &&
              decide (d.id ∈ filterSurvivorIds stripMod defs opts))).map Definition.id)
              d0).parentId = none := by
            rw [repointDefinition_parentId, hdp]
          rw [hnone] at hp
          cases hp
        | some q =>
          have hrw : (repointDefinition ((defs.filter (fun d => optStrTruthy d.id &&
              decide (d.id ∈ filterSurvivorIds stripMod defs opts))).map Definition.id)
              d0).parentId =
              if !q.isEmpty ∧ some q ∉ (defs.filter (fun d => optStrTruthy d.id &&
                decide (d.id ∈ filterSurvivorIds stripMod defs opts))).map Definition.id
              then none else some q := by
            rw [repointDefinition_parentId, hdp]
          rw [hrw] at hp
          by_cases hcond : (!q.isEmpty ∧ some q ∉ (defs.filter (fun d => optStrTruthy d.id &&
              decide (d.id ∈ filterSurvivorIds stripMod defs opts))).map Definition.id)
          · rw [if_pos hcond] at hp
            cases hp
          · rw [if_neg hcond] at hp
            have hq : q = p := Option.some.inj hp
            subst hq
            rcases Decidable.not_and_iff_or_not.mp hcond with hc | hc
            · rw [Bool.not_eq_true, Bool.not_eq_false'] at hc
              rw [hc] at hpe
              cases hpe
            · exact Decidable.not_not.mp hc
      rcases List.mem_map.mp hfin with ⟨e0, he0, heid⟩
      refine ⟨repointDefinition ((defs.filter (fun d => optStrTruthy d.id &&
        decide (d.id ∈ filterSurvivorIds stripMod defs opts))).map Definition.id) e0,
        ?_, ?_⟩
      · apply mem_applyFilters.mpr
        unfold filterPrepared
        exact List.mem_append.mpr (Or.inr (List.mem_map.mpr ⟨e0, he0, rfl⟩))
      · rw [repointDefinition_id]
        exact heid
  · intro m hm hmeta
    apply mem_applyFilters.mpr
    unfold filterPrepared
    refine List.mem_append.mpr (Or.inl ?_)
    unfold metaEntriesOf
    exact List.mem_filter.mpr ⟨hm, hmeta⟩
  · unfold applyFiltersToDefinitions
    by_cases he : defs.isEmpty
    · rw [if_pos he]
      exact List.Pairwise.nil
    · rw [if_neg he]
      have := stableSortBy_pairwise defLineLe_total defLineLe_trans
        (filterPrepared stripMod defs opts)
      refine this.imp ?_
      intro a b hab
      unfold defLineLe at hab
      simpa using hab
  · intro n
    unfold applyFiltersToDefinitions
    by_cases he : defs.isEmpty
    · rw [if_pos he, if_pos he]
    · rw [if_neg he, if_neg he]
      exact stableSortBy_filter_key (fun a b => rfl) defLineLe_total defLineLe_trans n
        (filterPrepared stripMod defs opts)

/-- Witness for C7: a class kept only through ancestor closure of its
surviving method, plus an error entry, under `includeTypes = ["method"]`. -/
theorem claim_C7_materialization_witness :
    (∃ e ∈ applyFiltersToDefinitions (fun _ _ => none)
        [errorDefinition "oops",
         { id := some "def-0", type := "class", name := "C", startLine := 1,
           endLine := 10, children := some ["def-1"] },
         { id := some "def-1", type := "method", name := "m", startLine := 2,
           endLine := 5, parentId := some "def-0", children := some [] }]
        { includeTypes := some ["method"] }, e.id = some "def-1") ∧
    (∃ e ∈ applyFiltersToDefinitions (fun _ _ => none)
        [errorDefinition "oops",
         { id := some "def-0", type := "class", name := "C", startLine := 1,
           endLine := 10, children := some ["def-1"] },
         { id := some "def-1", type := "method", name := "m", startLine := 2,
           endLine := 5, parentId := some "def-0", children := some [] }]
        { includeTypes := some ["method"] }, e.id = some "def-0") ∧
    errorDefinition "oops" ∈ applyFiltersToDefinitions (fun _ _ => none)
        [errorDefinition "oops",
         { id := some "def-0", type := "class", name := "C", startLine := 1,
           endLine := 10, children := some ["def-1"] },
         { id := some "def-1", type := "method", name := "m", startLine := 2,
           endLine := 5, parentId := some "def-0", children := some [] }]
        { includeTypes := some ["method"] } ∧
    (applyFiltersToDefinitions (fun _ _ => none)
        [errorDefinition "oops",
         { id := some "def-0", type := "class", name := "C", startLine := 1,
           endLine := 10, children := some ["def-1"] },
         { id := some "def-1", type := "method", name := "m", startLine := 2,
           endLine := 5, parentId := some "def-0", children := some [] }]
        { includeTypes := some ["method"] }).Pairwise
      (fun a b => a.startLine ≤ b.startLine) :=
  ⟨(claim_C7_materialization (fun _ _ => none)
      [errorDefinition "oops",
       { id := some "def-0", type := "class", name := "C", startLine := 1,
         endLine := 10, children := some ["def-1"] },
       { id := some "def-1", type := "method", name := "m", startLine := 2,
         endLine := 5, parentId := some "def-0", children := some [] }]
      { includeTypes := some ["method"] }).1
    { id := some "def-0", type := "class", name := "C", startLine := 1,
      endLine := 10, children := some ["def-1"] }
    (by decide) (by decide) ["def-1"] (by decide) "def-1" (by decide),
   (claim_C7_materialization (fun _ _ => none)
      [errorDefinition "oops",
       { id := some "def-0", type := "class", name := "C", startLine := 1,
         endLine := 10, children := some ["def-1"] },
       { id := some "def-1", type := "method", name := "m", startLine := 2,
         endLine := 5, parentId := some "def-0", children := some [] }]
      { includeTypes := some ["method"] }).2.1
    { id := some "def-1", type := "method", name := "m", startLine := 2,
      endLine := 5, parentId := some "def-0", children := some [] }
    (by decide) (by decide) "def-0" (by decide) (by decide),
   (claim_C7_materialization (fun _ _ => none)
      [errorDefinition "oops",
       { id := some "def-0", type := "class", name := "C", startLine := 1,
         endLine := 10, children := some ["def-1"] },
       { id := some "def-1", type := "method", name := "m", startLine := 2,
         endLine := 5, parentId := some "def-0", children := some [] }]
      { includeTypes := some ["method"] }).2.2.1
    (errorDefinition "oops") (by decide) (by decide),
   (claim_C7_materialization (fun _ _ => none)
      [errorDefinition "oops",
       { id := some "def-0", type := "class", name := "C", startLine := 1,
         endLine := 10, children := some ["def-1"] },
       { id := some "def-1", type := "method", name := "m", startLine := 2,
         endLine := 5, parentId := some "def-0", children := some [] }]
      { includeTypes := some ["method"] }).2.2.2.1⟩

/-! ### Ancestor closure (C1) -/

theorem closureLoop_cons_skip {stripMod : String → String → Option String}
    {opts : FilterOptions} {copy : List Definition} {fuel : Nat}
    {current : Definition} {rest : List Definition} {processed S : List (Option String)}
    (h1 : optStrTruthy current.id = false ∨ current.id ∈ processed) :
    closureLoop stripMod opts copy (fuel + 1) (current :: rest) processed S =
      closureLoop stripMod opts copy fuel rest processed S := by
  rw [closureLoop, if_pos h1]

theorem closureLoop_cons_parentInS {stripMod : String → String → Option String}
    {opts : FilterOptions} {copy : List Definition} {fuel : Nat}
    {current : Definition} {rest : List Definition} {processed S : List (Option String)}
    (h1 : ¬(optStrTruthy current.id = false ∨ current.id ∈ processed))
    (h2 : ¬(optStrTruthy current.parentId = true ∧ current.parentId ∉ S)) :
    closureLoop stripMod opts copy (fuel + 1) (current :: rest) processed S =
      closureLoop stripMod opts copy fuel rest (current.id :: processed) S := by
  rw [closureLoop, if_neg h1, if_neg h2]

theorem closureLoop_cons_findNone {stripMod : String → String → Option String}
    {opts : FilterOptions} {copy : List Definition} {fuel : Nat}
    {current : Definition} {rest : List Definition} {processed S : List (Option String)}
    (h1 : ¬(optStrTruthy current.id = false ∨ current.id ∈ processed))
    (h2 : optStrTruthy current.parentId = true ∧ current.parentId ∉ S)
    (hfind : copy.find? (fun p => p.id == current.parentId) = none) :
    closureLoop stripMod opts copy (fuel + 1) (current :: rest) processed S =
      closureLoop stripMod opts copy fuel rest (current.id :: processed) S := by
  rw [closureLoop, if_neg h1, if_pos h2, hfind]

theorem closureLoop_cons_parentFalsy {stripMod : String → String → Option String}
    {opts : FilterOptions} {copy : List Definition} {fuel : Nat}
    {current parent : Definition} {rest : List Definition}
    {processed S : List (Option String)}
    (h1 : ¬(optStrTruthy current.id = false ∨ current.id ∈ processed))
    (h2 : optStrTruthy current.parentId = true ∧ current.parentId ∉ S)
    (hfind : copy.find? (fun p => p.id == current.parentId) = some parent)
    (h3 : ¬optStrTruthy parent.id = true) :
    closureLoop stripMod opts copy (fuel + 1) (current :: rest) processed S =
      closureLoop stripMod opts copy fuel rest (current.id :: processed) S := by
  rw [closureLoop, if_neg h1, if_pos h2]
  simp only [hfind]
  rw [if_neg h3]

theorem closureLoop_cons_excluded {stripMod : String → String → Option String}
    {opts : FilterOptions} {copy : List Definition} {fuel : Nat}
    {current parent : Definition} {rest : List Definition}
    {processed S : List (Option String)}
    (h1 : ¬(optStrTruthy current.id = false ∨ current.id ∈ processed))
    (h2 : optStrTruthy current.parentId = true ∧ current.parentId ∉ S)
    (hfind : copy.find? (fun p => p.id == current.parentId) = some parent)
    (h3 : optStrTruthy parent.id = true)
    (h4 : parentExcluded stripMod opts parent = true) :
    closureLoop stripMod opts copy (fuel + 1) (current :: rest) processed S =
      closureLoop stripMod opts copy fuel rest (current.id :: processed) S := by
  rw [closureLoop, if_neg h1, if_pos h2]
  simp only [hfind]
  rw [if_pos h3, if_pos h4]

theorem closureLoop_cons_added {stripMod : String → String → Option String}
    {opts : FilterOptions} {copy : List Definition} {fuel : Nat}
    {current parent : Definition} {rest : List Definition}
    {processed S : List (Option String)}
    (h1 : ¬(optStrTruthy current.id = false ∨ current.id ∈ processed))
    (h2 : optStrTruthy current.parentId = true ∧ current.parentId ∉ S)
    (hfind : copy.find? (fun p => p.id == current.parentId) = some parent)
    (h3 : optStrTruthy parent.id = true)
    (h4 : ¬parentExcluded stripMod opts parent = true) :
    closureLoop stripMod opts copy (fuel + 1) (current :: rest) processed S =
      closureLoop stripMod opts copy fuel (parent :: rest)
        (current.id :: processed) (parent.id :: S) := by
  rw [closureLoop, if_neg h1, if_pos h2]
  simp only [hfind]
  rw [if_pos h3, if_neg h4]

theorem length_filter_mono {α : Type} {p q : α → Bool}
    (hmono : ∀ x, q x = true → p x = true) :
    ∀ l : List α, (l.filter q).length ≤ (l.filter p).length
  | [] => Nat.le_refl 0
  | x :: xs => by
    have ih := length_filter_mono hmono xs
    rw [List.filter_cons, List.filter_cons]
    by_cases hq : q x = true
    · rw [if_pos hq, if_pos (hmono x hq)]
      simpa using ih
    · rw [if_neg hq]
      by_cases hp : p x = true
      · rw [if_pos hp]
        simp only [List.length_cons]
        omega
      · rw [if_neg hp]
        exact ih

theorem length_filter_lt {α : Type} {p q : α → Bool}
    (hmono : ∀ x, q x = true → p x = true) {s : α} :
    ∀ l : List α, s ∈ l → p s = true → q s = false →
      (l.filter q).length < (l.filter p).length
  | x :: xs, hs, hps, hqs => by
    rw [List.filter_cons, List.filter_cons]
    rcases List.mem_cons.mp hs with rfl | hs2
    · rw [if_pos hps, if_neg (by simp [hqs])]
      have := length_filter_mono hmono xs
      simp only [List.length_cons]
      omega
    · have ih := length_filter_lt hmono xs hs2 hps hqs
      by_cases hq : q x = true
      · rw [if_pos hq, if_pos (hmono x hq)]
        simp only [List.length_cons]
        omega
      · rw [if_neg hq]
        by_cases hp : p x = true
        · rw [if_pos hp]
          simp only [List.length_cons]
          omega
        · rw [if_neg hp]
          exact ih

theorem mem_truthyIds_of {x : Definition} {copy : List Definition} {s : String}
    (hx : x ∈ copy) (hid : x.id = some s) (hne : s.isEmpty = false) :
    s ∈ truthyIds copy := by
  unfold truthyIds
  refine List.mem_filterMap.mpr ⟨x, hx, ?_⟩
  rw [hid]
  simp [hne]

theorem unprocessedCount_cons_lt {copy : List Definition}
    {processed : List (Option String)} {s : String}
    (hs : s ∈ truthyIds copy) (hnp : some s ∉ processed) :
    unprocessedCount copy (some s :: processed) < unprocessedCount copy processed := by
  unfold unprocessedCount
  refine length_filter_lt ?_ _ (List.mem_dedup.mpr hs) ?_ ?_
  · intro x hx
    rw [decide_eq_true_eq] at hx ⊢
    intro hmem
    exact hx (List.mem_cons_of_mem _ hmem)
  · rw [decide_eq_true_eq]
    exact hnp
  · rw [decide_eq_false_iff_not]
    intro hmem
    exact hmem (List.mem_cons_self _ _)

theorem unprocessedCount_le (copy : List Definition) (processed : List (Option String)) :
    unprocessedCount copy processed ≤ copy.length := by
  unfold unprocessedCount
  calc ((truthyIds copy).dedup.filter (fun s => decide (some s ∉ processed))).length
      ≤ (truthyIds copy).dedup.length := List.length_filter_le _ _
    _ ≤ (truthyIds copy).length := (List.dedup_sublist _).length_le
    _ ≤ copy.length := List.length_filterMap_le _ _

/-- `processedOK` is monotone in the survivor set. -/
theorem processedOK_mono {stripMod : String → String → Option String}
    {opts : FilterOptions} {copy : List Definition} {S S' : List (Option String)}
    (hsub : ∀ oid ∈ S, oid ∈ S') {x : Definition}
    (h : processedOK stripMod opts copy S x) : processedOK stripMod opts copy S' x := by
  intro ht
  rcases h ht with hmem | hrest
  · exact Or.inl (hsub _ hmem)
  · exact Or.inr hrest

/-- Master invariant of the closure worklist loop: with enough fuel, the loop
(1) only grows the survivor set, (2) leaves it closed — every surviving
definition's truthy parent is either in the set or was not addable (missing,
falsy id, or name-excluded) — and (3) only ever adds ids of non-excluded
definitions. -/
theorem closureLoop_spec (stripMod : String → String → Option String)
    (opts : FilterOptions) (copy : List Definition)
    (hnd : (copy.map Definition.id).Nodup) :
    ∀ (fuel : Nat) (work : List Definition) (processed S : List (Option String)),
      (∀ x ∈ work, x ∈ copy) →
      work.length + unprocessedCount copy processed ≤ fuel →
      (∀ oid ∈ S, optStrTruthy oid = true →
        ∃ x, x ∈ copy ∧ x.id = oid ∧ (oid ∈ processed ∨ x ∈ work)) →
      (∀ x ∈ copy, x.id ∈ processed → processedOK stripMod opts copy S x) →
      (∀ oid ∈ S, oid ∈ closureLoop stripMod opts copy fuel work processed S) ∧
      (∀ x ∈ copy, optStrTruthy x.id = true →
        x.id ∈ closureLoop stripMod opts copy fuel work processed S →
        processedOK stripMod opts copy
          (closureLoop stripMod opts copy fuel work processed S) x) ∧
      (∀ oid ∈ closureLoop stripMod opts copy fuel work processed S,
        oid ∈ S ∨ ∃ x, x ∈ copy ∧ x.id = oid ∧
          parentExcluded stripMod opts x = false) := by
  have hinj : ∀ x ∈ copy, ∀ y ∈ copy, x.id = y.id → x = y := fun x hx y hy h =>
    List.inj_on_of_nodup_map hnd hx hy h
  intro fuel
  induction fuel with
  | zero =>
    intro work processed S hw hfuel hI hII
    have hwork : work = [] := List.length_eq_zero.mp (by omega)
    subst hwork
    refine ⟨fun oid h => h, ?_, fun oid h => Or.inl h⟩
    intro x hx ht hxS
    rcases hI x.id hxS ht with ⟨y, hy, hyid, hcase⟩
    rcases hcase with hproc | hmem
    · have hxy : y = x := hinj y hy x hx hyid
      subst hxy
      exact hII y hy hproc
    · cases hmem
  | succ fuel ih =>
    intro work processed S hw hfuel hI hII
    cases work with
    | nil =>
      refine ⟨fun oid h => h, ?_, fun oid h => Or.inl h⟩
      intro x hx ht hxS
      rcases hI x.id hxS ht with ⟨y, hy, hyid, hcase⟩
      rcases hcase with hproc | hmem
      · have hxy : y = x := hinj y hy x hx hyid
        subst hxy
        exact hII y hy hproc
      · cases hmem
    | cons current rest =>
      have hcur : current ∈ copy := hw current (List.mem_cons_self _ _)
      have hrest : ∀ x ∈ rest, x ∈ copy := fun x hx => hw x (List.mem_cons_of_mem _ hx)
      simp only [List.length_cons] at hfuel
      by_cases h1 : optStrTruthy current.id = false ∨ current.id ∈ processed
      · rw [closureLoop_cons_skip h1]
        refine ih rest processed S hrest (by omega) ?_ hII
        intro oid hoid ht
        rcases hI oid hoid ht with ⟨x, hx, hxid, hcase⟩
        refine ⟨x, hx, hxid, ?_⟩
        rcases hcase with hp | hm
        · exact Or.inl hp
        · rcases List.mem_cons.mp hm with rfl | hm2
          · rcases h1 with hfalse | hproc
            · rw [hxid, ht] at hfalse
              cases hfalse
            · exact Or.inl (hxid ▸ hproc)
          · exact Or.inr hm2
      · have hid : optStrTruthy current.id = true := by
          rcases Bool.eq_false_or_eq_true (optStrTruthy current.id) with ht | hf
          · exact ht
          · exact absurd (Or.inl hf) h1
        have hnp : current.id ∉ processed := fun hmem => h1 (Or.inr hmem)
        have hs : ∃ s, current.id = some s ∧ s.isEmpty = false := by
          cases hci : current.id with
          | none =>
            rw [hci] at hid
            cases hid
          | some s =>
            refine ⟨s, rfl, ?_⟩
            rw [hci] at hid
            unfold optStrTruthy at hid
            simpa using hid
        rcases hs with ⟨s, hcs, hsne⟩
        have hΔ : unprocessedCount copy (current.id :: processed) <
            unprocessedCount copy processed := by
          rw [hcs]
          refine unprocessedCount_cons_lt (mem_truthyIds_of hcur hcs hsne) ?_
          rw [← hcs]
          exact hnp
        have hI' : ∀ oid ∈ S, optStrTruthy oid = true →
            ∃ x, x ∈ copy ∧ x.id = oid ∧ (oid ∈ current.id :: processed ∨ x ∈ rest) := by
          intro oid hoid ht
          rcases hI oid hoid ht with ⟨x, hx, hxid, hcase⟩
          refine ⟨x, hx, hxid, ?_⟩
          rcases hcase with hp | hm
          · exact Or.inl (List.mem_cons_of_mem _ hp)
          · rcases List.mem_cons.mp hm with rfl | hm2
            · refine Or.inl ?_
              rw [← hxid]
              exact List.mem_cons_self _ _
            · exact Or.inr hm2
        by_cases h2 : optStrTruthy current.parentId = true ∧ current.parentId ∉ S
        · cases hfind : copy.find? (fun p => p.id == current.parentId) with
          | none =>
            rw [closureLoop_cons_findNone h1 h2 hfind]
            refine ih rest (current.id :: processed) S hrest (by omega) hI' ?_
            intro x hx hxp
            rcases List.mem_cons.mp hxp with heq | hp
            · have hxc : x = current := hinj x hx current hcur heq
              subst hxc
              intro _
              refine Or.inr ?_
              rw [hfind]
              trivial
            · exact hII x hx hp
          | some parent =>
            by_cases h3 : optStrTruthy parent.id = true
            · by_cases h4 : parentExcluded stripMod opts parent = true
              · rw [closureLoop_cons_excluded h1 h2 hfind h3 h4]
                refine ih rest (current.id :: processed) S hrest (by omega) hI' ?_
                intro x hx hxp
                rcases List.mem_cons.mp hxp with heq | hp
                · have hxc : x = current := hinj x hx current hcur heq
                  subst hxc
                  intro _
                  refine Or.inr ?_
                  rw [hfind]
                  exact Or.inr h4
                · exact hII x hx hp
              · rw [closureLoop_cons_added h1 h2 hfind h3 h4]
                have hparent : parent ∈ copy := List.mem_of_find?_eq_some hfind
                have hpid : parent.id = current.parentId := by
                  have := List.find?_some hfind
                  simpa using this
                have hexcl : parentExcluded stripMod opts parent = false := by
                  rcases Bool.eq_false_or_eq_true (parentExcluded stripMod opts parent)
                    with ht | hf
                  · exact absurd ht h4
                  · exact hf
                have hw2 : ∀ x ∈ parent :: rest, x ∈ copy := by
                  intro x hx
                  rcases List.mem_cons.mp hx with rfl | hx2
                  · exact hparent
                  · exact hrest x hx2
                have hf2 : (parent :: rest).length +
                    unprocessedCount copy (current.id :: processed) ≤ fuel := by
                  simp only [List.length_cons]
                  omega
                have hI2 : ∀ oid ∈ parent.id :: S, optStrTruthy oid = true →
                    ∃ x, x ∈ copy ∧ x.id = oid ∧
                      (oid ∈ current.id :: processed ∨ x ∈ parent :: rest) := by
                  intro oid hoid ht
                  rcases List.mem_cons.mp hoid with rfl | hoid2
                  · exact ⟨parent, hparent, rfl, Or.inr (List.mem_cons_self _ _)⟩
                  · rcases hI' oid hoid2 ht with ⟨x, hx, hxid, hcase⟩
                    refine ⟨x, hx, hxid, ?_⟩
                    rcases hcase with hp | hm
                    · exact Or.inl hp
                    · exact Or.inr (List.mem_cons_of_mem _ hm)
                have hII2 : ∀ x ∈ copy, x.id ∈ current.id :: processed →
                    processedOK stripMod opts copy (parent.id :: S) x := by
                  intro x hx hxp
                  rcases List.mem_cons.mp hxp with heq | hp
                  · have hxc : x = current := hinj x hx current hcur heq
                    subst hxc
                    intro _
                    refine Or.inl ?_
                    rw [← hpid]
                    exact List.mem_cons_self _ _
                  · exact processedOK_mono (fun oid h => List.mem_cons_of_mem _ h)
                      (hII x hx hp)
                obtain ⟨c1, c2, c3⟩ := ih (parent :: rest) (current.id :: processed)
                  (parent.id :: S) hw2 hf2 hI2 hII2
                refine ⟨?_, c2, ?_⟩
                · intro oid hoid
                  exact c1 oid (List.mem_cons_of_mem _ hoid)
                · intro oid hoid
                  rcases c3 oid hoid with hin | hadd
                  · rcases List.mem_cons.mp hin with rfl | hin2
                    · exact Or.inr ⟨parent, hparent, rfl, hexcl⟩
                    · exact Or.inl hin2
                  · exact Or.inr hadd
            · rw [closureLoop_cons_parentFalsy h1 h2 hfind h3]
              refine ih rest (current.id :: processed) S hrest (by omega) hI' ?_
              intro x hx hxp
              rcases List.mem_cons.mp hxp with heq | hp
              · have hxc : x = current := hinj x hx current hcur heq
                subst hxc
                intro _
                refine Or.inr ?_
                rw [hfind]
                refine Or.inl ?_
                rcases Bool.eq_false_or_eq_true (optStrTruthy parent.id) with ht | hf
                · exact absurd ht h3
                · exact hf
              · exact hII x hx hp
        · rw [closureLoop_cons_parentInS h1 h2]
          refine ih rest (current.id :: processed) S hrest (by omega) hI' ?_
          intro x hx hxp
          rcases List.mem_cons.mp hxp with heq | hp
          · have hxc : x = current := hinj x hx current hcur heq
            subst hxc
            intro ht
            refine Or.inl ?_
            by_contra hnotin
            exact h2 ⟨ht, hnotin⟩
          · exact hII x hx hp

/-- The closure invariants instantiated at the loop call made by the filter:
basic survivors are in the final set, the final set is closed under
non-excluded parents, and everything in it is a basic survivor or
non-excluded. -/
theorem filterSurvivorIds_spec (stripMod : String → String → Option String)
    (defs : List Definition) (opts : FilterOptions)
    (hnd : (defs.map Definition.id).Nodup) :
    (∀ x ∈ basicFilteredEntries opts defs,
      x.id ∈ filterSurvivorIds stripMod defs opts) ∧
    (∀ x ∈ defs, optStrTruthy x.id = true →
      x.id ∈ filterSurvivorIds stripMod defs opts →
      processedOK stripMod opts defs (filterSurvivorIds stripMod defs opts) x) ∧
    (∀ oid ∈ filterSurvivorIds stripMod defs opts,
      oid ∈ (basicFilteredEntries opts defs).map Definition.id ∨
      ∃ x, x ∈ defs ∧ x.id = oid ∧ parentExcluded stripMod opts x = false) := by
  have hbf : ∀ x ∈ basicFilteredEntries opts defs, x ∈ defs := by
    intro x hx
    unfold basicFilteredEntries at hx
    have h2 := List.mem_of_mem_filter hx
    unfold nonMetaEntriesOf at h2
    exact List.mem_of_mem_filter h2
  have hw : ∀ x ∈ (basicFilteredEntries opts defs).reverse, x ∈ defs := by
    intro x hx
    exact hbf x (List.mem_reverse.mp hx)
  have hf : (basicFilteredEntries opts defs).reverse.length + unprocessedCount defs [] ≤
      defs.length + (basicFilteredEntries opts defs).length + 1 := by
    rw [List.length_reverse]
    have := unprocessedCount_le defs []
    omega
  have hI : ∀ oid ∈ (basicFilteredEntries opts defs).map Definition.id,
      optStrTruthy oid = true → ∃ x, x ∈ defs ∧ x.id = oid ∧
        (oid ∈ ([] : List (Option String)) ∨
          x ∈ (basicFilteredEntries opts defs).reverse) := by
    intro oid hoid _
    rcases List.mem_map.mp hoid with ⟨x, hx, hxid⟩
    exact ⟨x, hbf x hx, hxid, Or.inr (List.mem_reverse.mpr hx)⟩
  have hII : ∀ x ∈ defs, x.id ∈ ([] : List (Option String)) →
      processedOK stripMod opts defs
        ((basicFilteredEntries opts defs).map Definition.id) x := by
    intro x _ hx
    cases hx
  obtain ⟨c1, c2, c3⟩ := closureLoop_spec stripMod opts defs hnd
    (defs.length + (basicFilteredEntries opts defs).length + 1)
    (basicFilteredEntries opts defs).reverse []
    ((basicFilteredEntries opts defs).map Definition.id) hw hf hI hII
  exact ⟨fun x hx => c1 x.id (List.mem_map.mpr ⟨x, hx, rfl⟩), c2, c3⟩

/-- A definition that survives into the output has its id in the survivor
set. -/
theorem survivor_id_mem_filterSurvivorIds (stripMod : String → String → Option String)
    (defs : List Definition) (opts : FilterOptions) {d : Definition}
    (hnd : (defs.map Definition.id).Nodup)
    (hd : d ∈ defs) (hdm : isMetaType d.type = false)
    (hsurv : ∃ e ∈ applyFiltersToDefinitions stripMod defs opts, e.id = d.id) :
    d.id ∈ filterSurvivorIds stripMod defs opts := by
  rcases hsurv with ⟨e, he, heid⟩
  have he2 : e ∈ filterPrepared stripMod defs opts := mem_applyFilters.mp he
  unfold filterPrepared at he2
  rcases List.mem_append.mp he2 with hmem | hmem
  · have heD : e ∈ defs := List.mem_of_mem_filter hmem
    have hemeta : isMetaType e.type = true := by
      unfold metaEntriesOf at hmem
      exact (List.mem_filter.mp hmem).2
    have hed : e = d := List.inj_on_of_nodup_map hnd heD hd heid
    rw [hed, hdm] at hemeta
    cases hemeta
  · rcases List.mem_map.mp hmem with ⟨e0, he0, hre⟩
    have hfl := (List.mem_filter.mp he0).2
    rw [Bool.and_eq_true] at hfl
    have he0S : e0.id ∈ filterSurvivorIds stripMod defs opts := of_decide_eq_true hfl.2
    have hee0 : e.id = e0.id := by
      rw [← hre]
      rfl
    rw [← heid, hee0]
    exact he0S

/-- Conversely, a definition of the list with a truthy id in the survivor set
appears (re-pointed) in the output, with its id. -/
theorem mem_out_of_survivor (stripMod : String → String → Option String)
    (defs : List Definition) (opts : FilterOptions) {x : Definition}
    (hx : x ∈ defs) (ht : optStrTruthy x.id = true)
    (hS : x.id ∈ filterSurvivorIds stripMod defs opts) :
    ∃ e ∈ applyFiltersToDefinitions stripMod defs opts, e.id = x.id := by
  refine ⟨repointDefinition ((defs.filter (fun d => optStrTruthy d.id &&
    decide (d.id ∈ filterSurvivorIds stripMod defs opts))).map Definition.id) x, ?_, rfl⟩
  apply mem_applyFilters.mpr
  unfold filterPrepared
  refine List.mem_append.mpr (Or.inr ?_)
  refine List.mem_map.mpr ⟨x, ?_, rfl⟩
  refine List.mem_filter.mpr ⟨hx, ?_⟩
  rw [Bool.and_eq_true]
  exact ⟨ht, decide_eq_true hS⟩

/-- C1: if a definition survives filtering, then walking the pre-filter
`parentId` chain, every ancestor up to (and excluding) the first one whose
name matches `excludeNamePattern` also survives; and an id only ever enters
the survivor set as a basic survivor or as a non-excluded ancestor — an
excluded ancestor is never added by the closure, stopping only that upward
path. -/
theorem claim_C1_ancestor_closure (stripMod : String → String → Option String)
    (defs : List Definition) (opts : FilterOptions) (d : Definition)
    (htruthy : ∀ x ∈ defs, optStrTruthy x.id = true)
    (hnd : (defs.map Definition.id).Nodup)
    (hd : d ∈ defs) (hdm : isMetaType d.type = false)
    (hsurv : ∃ e ∈ applyFiltersToDefinitions stripMod defs opts, e.id = d.id) :
    (∀ k : Nat,
      (∀ j, 1 ≤ j → j ≤ k → ∃ a, ancestorChain defs d j = some a ∧
        parentExcluded stripMod opts a = false) →
      ∃ a, ancestorChain defs d k = some a ∧
        ∃ e ∈ applyFiltersToDefinitions stripMod defs opts, e.id = a.id) ∧
    (∀ oid ∈ filterSurvivorIds stripMod defs opts,
      (∃ x ∈ basicFilteredEntries opts defs, x.id = oid) ∨
      (∃ x ∈ defs, x.id = oid ∧ parentExcluded stripMod opts x = false)) := by
  obtain ⟨s1, s2, s3⟩ := filterSurvivorIds_spec stripMod defs opts hnd
  constructor
  · have hchain : ∀ k : Nat,
        (∀ j, 1 ≤ j → j ≤ k → ∃ a, ancestorChain defs d j = some a ∧
          parentExcluded stripMod opts a = false) →
        ∃ a, ancestorChain defs d k = some a ∧ a ∈ defs ∧
          a.id ∈ filterSurvivorIds stripMod defs opts := by
      intro k
      induction k with
      | zero =>
        intro _
        exact ⟨d, rfl, hd,
          survivor_id_mem_filterSurvivorIds stripMod defs opts hnd hd hdm hsurv⟩
      | succ k ihk =>
        intro hexc
        obtain ⟨a, hak, haD, haS⟩ :=
          ihk (fun j hj1 hjk => hexc j hj1 (Nat.le_succ_of_le hjk))
        obtain ⟨a', ha'chain, ha'exc⟩ := hexc (k + 1) (by omega) (Nat.le_refl _)
        have hstep : parentLookup defs a = some a' := by
          simp only [ancestorChain, hak] at ha'chain
          exact ha'chain
        have hPL : optStrTruthy a.parentId = true ∧
            defs.find? (fun p => p.id == a.parentId) = some a' := by
          unfold parentLookup at hstep
          by_cases hth : optStrTruthy a.parentId = true
          · rw [if_pos hth] at hstep
            exact ⟨hth, hstep⟩
          · rw [if_neg hth] at hstep
            cases hstep
        rcases hPL with ⟨hth, hfind⟩
        have ha'D : a' ∈ defs := List.mem_of_find?_eq_some hfind
        have ha'id : a'.id = a.parentId := by
          have := List.find?_some hfind
          simpa using this
        have hOK := s2 a haD (htruthy a haD) haS
        rcases hOK hth with hin | hrest
        · refine ⟨a', ?_, ha'D, ?_⟩
          · simp only [ancestorChain, hak]
            exact hstep
          · rw [ha'id]
            exact hin
        · simp only [hfind] at hrest
          rcases hrest with hfalsy | hexcl2
          · rw [htruthy a' ha'D] at hfalsy
            cases hfalsy
          · rw [ha'exc] at hexcl2
            cases hexcl2
    intro k hexc
    obtain ⟨a, hak, haD, haS⟩ := hchain k hexc
    exact ⟨a, hak, mem_out_of_survivor stripMod defs opts haD (htruthy a haD) haS⟩
  · intro oid hoid
    rcases s3 oid hoid with hbfm | hxm
    · rcases List.mem_map.mp hbfm with ⟨x, hx2, hxid⟩
      exact Or.inl ⟨x, hx2, hxid⟩
    · rcases hxm with ⟨x, hx2, hxid, hexc⟩
      exact Or.inr ⟨x, hx2, hxid, hexc⟩

/-- Witness for C1: with `includeTypes = ["method"]` the method survives
basically and its class ancestor (not name-excluded) survives through the
closure. -/
theorem claim_C1_ancestor_closure_witness :
    ∃ a, ancestorChain c1defs c1M 1 = some a ∧
      ∃ e ∈ applyFiltersToDefinitions (fun _ _ => none) c1defs
        { includeTypes := some ["method"] }, e.id = a.id :=
  (claim_C1_ancestor_closure (fun _ _ => none) c1defs
    { includeTypes := some ["method"] } c1M
    (by decide) (by decide) (by decide) (by decide) (by decide)).1 1
    (by
      intro j hj1 hj2
      have hj : j = 1 := by omega
      subst hj
      exact ⟨c1C, by decide, by decide⟩)

/-! ### Hierarchy builder (C2) -/

mutual
theorem containsPoint_of_mem_descendPath (pt : Nat × Nat) :
    ∀ (n : SNode), containsPoint n pt = true →
      ∀ x ∈ descendPath pt n, containsPoint x pt = true
  | .node t s e op cs, hn, x, hx => by
    rw [descendPath] at hx
    rcases List.mem_cons.mp hx with rfl | hx2
    · exact hn
    · exact containsPoint_of_mem_descendChild pt cs x hx2

theorem containsPoint_of_mem_descendChild (pt : Nat × Nat) :
    ∀ (cs : List SNode), ∀ x ∈ descendChild pt cs, containsPoint x pt = true
  | [], x, hx => by
    rw [descendChild] at hx
    cases hx
  | c :: cs, x, hx => by
    rw [descendChild] at hx
    by_cases hc : containsPoint c pt = true
    · rw [if_pos hc] at hx
      exact containsPoint_of_mem_descendPath pt c hc x hx
    · rw [if_neg hc] at hx
      exact containsPoint_of_mem_descendChild pt cs x hx
end

/-- Every ancestor on the walked chain contains the queried point (when the
root does). -/
theorem containsPoint_of_mem_ancestorsAt {root : SNode} {pt : Nat × Nat}
    (hroot : containsPoint root pt = true) {x : SNode}
    (hx : x ∈ ancestorsAt root pt) : containsPoint x pt = true := by
  unfold ancestorsAt at hx
  have hx2 : x ∈ (descendPath pt root).dropLast := List.mem_reverse.mp hx
  have hx3 : x ∈ descendPath pt root :=
    List.Sublist.mem hx2 (List.dropLast_sublist _)
  exact containsPoint_of_mem_descendPath pt root hroot x hx3

/-- Row bounds extracted from point containment at column 0. -/
theorem span_bounds_of_containsPoint {a : SNode} {row : Nat}
    (h : containsPoint a (row, 0) = true) :
    a.startPos.1 ≤ row ∧ row ≤ a.endPos.1 := by
  unfold containsPoint posLe posLt at h
  rw [Bool.and_eq_true] at h
  rcases h with ⟨h1, h2⟩
  simp only [Bool.or_eq_true, Bool.and_eq_true, decide_eq_true_eq, beq_iff_eq] at h1 h2
  omega

/-- Components of a positive parent-match test. -/
theorem defMatchesAncestor_spec {d : Definition} {a : SNode} {q : Definition}
    (h : defMatchesAncestor d a q = true) :
    q.id ≠ d.id ∧ q.startLine = a.startPos.1 + 1 ∧ q.endLine = a.endPos.1 + 1 ∧
      q.type ∈ plausibleParentTypes := by
  unfold defMatchesAncestor at h
  simp only [Bool.and_eq_true, beq_iff_eq, bne_iff_ne] at h
  refine ⟨h.1.1.1, h.1.1.2, h.1.2, ?_⟩
  simpa using h.2

/-- Specification of `List.findIdx?` (with explicit start index). -/
theorem findIdx?_spec {α : Type} {p : α → Bool} :
    ∀ (l : List α) (s i : Nat), List.findIdx? p l s = some i →
      s ≤ i ∧ ∃ x, l.get? (i - s) = some x ∧ p x = true ∧
        ∀ j x', j < i - s → l.get? j = some x' → p x' = false
  | [], s, i, h => by
    rw [List.findIdx?_nil] at h
    cases h
  | a :: as, s, i, h => by
    rw [List.findIdx?_cons] at h
    by_cases hp : p a = true
    · rw [if_pos hp] at h
      have hi : s = i := Option.some.inj h
      subst hi
      refine ⟨Nat.le_refl s, a, ?_, hp, ?_⟩
      · simp
      · intro j x' hj _
        omega
    · rw [if_neg hp] at h
      obtain ⟨hle, x, hget, hpx, hmin⟩ := findIdx?_spec as (s + 1) i h
      refine ⟨by omega, x, ?_, hpx, ?_⟩
      · have h1 : i - s = (i - (s + 1)) + 1 := by omega
        rw [h1]
        simpa using hget
      · intro j x' hj hget'
        cases j with
        | zero =>
          simp only [List.get?_cons_zero, Option.some.injEq] at hget'
          rw [← hget']
          rcases Bool.eq_false_or_eq_true (p a) with ht | hf
          · exact absurd ht hp
          · exact hf
        | succ j' =>
          have hj2 : j' < i - (s + 1) := by omega
          apply hmin j' x' hj2
          simpa using hget'

/-- The ancestor walk returns the first ancestor carrying a match, and within
it the first matching definition. -/
theorem findParentIdxAux_spec (defs : List Definition) (d : Definition) :
    ∀ (anc : List SNode) (i : Nat), findParentIdxAux defs d anc = some i →
      ∃ k a, anc.get? k = some a ∧
        defs.findIdx? (defMatchesAncestor d a) = some i ∧
        ∀ k' a', k' < k → anc.get? k' = some a' →
          defs.findIdx? (defMatchesAncestor d a') = none
  | [], i, h => by
    rw [findParentIdxAux] at h
    cases h
  | a :: rest, i, h => by
    rw [findParentIdxAux] at h
    cases hfi : defs.findIdx? (defMatchesAncestor d a) with
    | some i' =>
      rw [hfi] at h
      have : i' = i := Option.some.inj h
      subst this
      refine ⟨0, a, rfl, hfi, ?_⟩
      intro k' a' hk' _
      omega
    | none =>
      rw [hfi] at h
      obtain ⟨k, a', hk, hfi', hmin⟩ := findParentIdxAux_spec defs d rest i h
      refine ⟨k + 1, a', by simpa using hk, hfi', ?_⟩
      intro k' a'' hk' hget
      cases k' with
      | zero =>
        simp only [List.get?_cons_zero, Option.some.injEq] at hget
        rw [← hget]
        exact hfi
      | succ k'' =>
        refine hmin k'' a'' (by omega) ?_
        simpa using hget

/-- The per-index effect of `assignParents`: `parentId` is set from the
chosen parent, the line span is untouched. -/
theorem assignParents_get? (tree : SNode) (defs : List Definition) (j : Nat)
    (d : Definition) (hj : defs.get? j = some d) :
    ∃ d', (assignParents tree defs).get? j = some d' ∧
      d'.parentId = (match findParentIdx tree defs d with
        | some i => (defs.get? i).bind Definition.id
        | none => d.parentId) ∧
      d'.startLine = d.startLine ∧ d'.endLine = d.endLine := by
  unfold assignParents
  rw [List.get?_map, List.enum_get?, hj]
  simp only [Option.map_some']
  cases hfp : findParentIdx tree defs d with
  | some i =>
    by_cases hany : (defs.any fun d0 => findParentIdx tree defs d0 == some j) = true
    · refine ⟨_, rfl, ?_, ?_, ?_⟩ <;> simp [hfp, hany]
    · refine ⟨_, rfl, ?_, ?_, ?_⟩ <;> simp [hfp, hany]
  | none =>
    by_cases hany : (defs.any fun d0 => findParentIdx tree defs d0 == some j) = true
    · refine ⟨_, rfl, ?_, ?_, ?_⟩ <;> simp [hfp, hany]
    · refine ⟨_, rfl, ?_, ?_, ?_⟩ <;> simp [hfp, hany]

/-- C2 counterexample (to the nesting half of the claim as stated): in
`c2tree`/`c2defs`, method `m` starts on the row holding the closing brace of
class `A`, so the node at `(m.startLine - 1, column 0)` lies inside `A`; the
first matching ancestor is `A`'s body, whose span equals class `A`, and the
pipeline links `m` to parent `A` although `m.endLine = 9 > 3 = A.endLine`. -/
theorem claim_C2_counterexample :
    findParentIdx c2tree c2defs c2m = some 0 ∧
    c2defs.get? 0 = some c2A ∧
    (assignParents c2tree c2defs).get? 2 =
      some { c2m with parentId := some "def-0" } ∧
    ({ c2m with parentId := some "def-0" } : Definition).endLine = 9 ∧
    c2A.endLine = 3 ∧
    ¬(({ c2m with parentId := some "def-0" } : Definition).endLine ≤ c2A.endLine) :=
  ⟨by decide, by decide, by decide, rfl, rfl, by decide⟩

/-- C2 (amended): when the pipeline assigns `d` the parent `p` (at list index
`i`) and the queried point lies in the tree, the parent's span covers `d`'s
START line — `p.startLine ≤ d.startLine ≤ p.endLine` — but not necessarily
`d`'s whole span; the link recorded by `assignParents` is `p.id`; and `p` is
the first matching definition of the first ancestor (walking outward from the
node at `d`'s start line) whose exact line span equals that of some other
definition of plausible container kind. -/
theorem claim_C2_parent_selection (tree : SNode) (defs : List Definition)
    (d p : Definition) (i : Nat)
    (hfp : findParentIdx tree defs d = some i)
    (hget : defs.get? i = some p)
    (hroot : containsPoint tree (d.startLine - 1, 0) = true)
    (hstart : 1 ≤ d.startLine) :
    (p.startLine ≤ d.startLine ∧ d.startLine ≤ p.endLine) ∧
    (∀ j, defs.get? j = some d → ∃ d', (assignParents tree defs).get? j = some d' ∧
      d'.parentId = p.id ∧ d'.startLine = d.startLine ∧ d'.endLine = d.endLine) ∧
    (∃ k a, (ancestorsAt tree (d.startLine - 1, 0)).get? k = some a ∧
      defMatchesAncestor d a p = true ∧
      (∀ i' p', i' < i → defs.get? i' = some p' → defMatchesAncestor d a p' = false) ∧
      (∀ k' a', k' < k → (ancestorsAt tree (d.startLine - 1, 0)).get? k' = some a' →
        defs.findIdx? (defMatchesAncestor d a') = none)) := by
  obtain ⟨k, a, hk, hfi, hmin⟩ := findParentIdxAux_spec defs d
    (ancestorsAt tree (d.startLine - 1, 0)) i hfp
  obtain ⟨-, x, hx, hpx, hxmin⟩ := findIdx?_spec defs 0 i hfi
  simp only [Nat.sub_zero] at hx hxmin
  have hxp : x = p := by
    rw [hget] at hx
    exact (Option.some.inj hx).symm
  subst hxp
  have hmem : a ∈ ancestorsAt tree (d.startLine - 1, 0) := by
    have := List.get?_mem hk
    exact this
  have hcont : containsPoint a (d.startLine - 1, 0) = true :=
    containsPoint_of_mem_ancestorsAt hroot hmem
  obtain ⟨hrow1, hrow2⟩ := span_bounds_of_containsPoint hcont
  obtain ⟨-, hps, hpe, -⟩ := defMatchesAncestor_spec hpx
  refine ⟨⟨by omega, by omega⟩, ?_, ?_⟩
  · intro j hj
    obtain ⟨d', h1, h2, h3, h4⟩ := assignParents_get? tree defs j d hj
    refine ⟨d', h1, ?_, h3, h4⟩
    rw [h2, hfp]
    show (defs.get? i).bind Definition.id = _
    rw [hget]
    rfl
  · exact ⟨k, a, hk, hpx, fun i' p' hi' hgi' => hxmin i' p' hi' hgi', hmin⟩

/-- Witness for the amended C2 at the concrete counterexample scenario. -/
theorem claim_C2_parent_selection_witness :
    (c2A.startLine ≤ c2m.startLine ∧ c2m.startLine ≤ c2A.endLine) ∧
    (∀ j, c2defs.get? j = some c2m →
      ∃ d', (assignParents c2tree c2defs).get? j = some d' ∧
        d'.parentId = c2A.id ∧ d'.startLine = c2m.startLine ∧
        d'.endLine = c2m.endLine) ∧
    (∃ k a, (ancestorsAt c2tree (c2m.startLine - 1, 0)).get? k = some a ∧
      defMatchesAncestor c2m a c2A = true ∧
      (∀ i' p', i' < 0 → c2defs.get? i' = some p' →
        defMatchesAncestor c2m a p' = false) ∧
      (∀ k' a', k' < k →
        (ancestorsAt c2tree (c2m.startLine - 1, 0)).get? k' = some a' →
        c2defs.findIdx? (defMatchesAncestor c2m a') = none)) :=
  claim_C2_parent_selection c2tree c2defs c2m c2A 0 (by decide) (by decide)
    (by decide) (by decide)

/-! ### Renderer coverage (C9) -/

theorem string_data_append (a b : String) : (a ++ b).data = a.data ++ b.data := rfl

theorem string_data_foldl_append :
    ∀ (l : List String) (acc : String),
      (l.foldl (· ++ ·) acc).data = acc.data ++ (l.map String.data).join
  | [], acc => by simp
  | x :: xs, acc => by
    rw [List.foldl_cons, string_data_foldl_append xs (acc ++ x)]
    simp [string_data_append, List.append_assoc]

theorem string_data_join (l : List String) :
    (String.join l).data = (l.map String.data).join := by
  show (l.foldl (· ++ ·) "").data = _
  rw [string_data_foldl_append]
  rfl

theorem infix_join_of_mem {x : String} {l : List String} (hx : x ∈ l)
    {sub : List Char} (h : sub <:+: x.data) : sub <:+: (String.join l).data := by
  rw [string_data_join]
  exact h.trans (List.infix_of_mem_join (List.mem_map.mpr ⟨x, hx, rfl⟩))

theorem infix_append_left {sub l : List Char} (r : List Char) (h : sub <:+: l) :
    sub <:+: l ++ r := by
  rcases h with ⟨s, t, rfl⟩
  exact ⟨s, t ++ r, by simp⟩

theorem infix_append_right (l : List Char) {sub r : List Char} (h : sub <:+: r) :
    sub <:+: l ++ r := by
  rcases h with ⟨s, t, rfl⟩
  exact ⟨l ++ s, t, by simp⟩

/-- Association-list lookup by key, with duplicate-free keys. -/
theorem find?_key_of_mem_nodup :
    ∀ {results : List (String × List Definition)} {fp : String}
      {defs : List Definition},
      (results.map Prod.fst).Nodup → (fp, defs) ∈ results →
      results.find? (fun pr => pr.1 == fp) = some (fp, defs)
  | [], _, _, _, hmem => absurd hmem (List.not_mem_nil _)
  | (a, b) :: rest, fp, defs, hnd, hmem => by
    rw [List.map_cons] at hnd
    have hnd2 := List.nodup_cons.mp hnd
    rcases List.mem_cons.mp hmem with heq | hmem2
    · rw [← heq]
      rw [List.find?_cons_of_pos]
      simp
    · have hfp : fp ∈ rest.map Prod.fst :=
        List.mem_map.mpr ⟨(fp, defs), hmem2, rfl⟩
      have hane : a ≠ fp := by
        intro h
        subst h
        exact hnd2.1 hfp
      rw [List.find?_cons_of_neg]
      · exact find?_key_of_mem_nodup hnd2.2 hmem2
      · simp [hane]

theorem xContainsDefList_of_mem {e : Definition} {x : XNode} :
    ∀ {l : List XNode}, x ∈ l → xContainsDef e x = true → xContainsDefList e l = true
  | [], hx, _ => absurd hx (List.not_mem_nil _)
  | y :: ys, hx, h => by
    rw [xContainsDefList]
    rcases List.mem_cons.mp hx with rfl | hx2
    · rw [h]
      rfl
    · rw [xContainsDefList_of_mem hx2 h]
      simp

theorem jContainsDefList_of_mem {e : Definition} {x : JView} :
    ∀ {l : List JView}, x ∈ l → jContainsDef e x = true → jContainsDefList e l = true
  | [], hx, _ => absurd hx (List.not_mem_nil _)
  | y :: ys, hx, h => by
    rw [jContainsDefList]
    rcases List.mem_cons.mp hx with rfl | hx2
    · rw [h]
      rfl
    · rw [jContainsDefList_of_mem hx2 h]
      simp

theorem jContainsDef_obj (d : Definition) (t n : String) (sl el : Option Nat)
    (m dt v rt : Option String) (ps : Option (List Parameter))
    (cs : Option (List String)) (ch : Option (List JView)) :
    jContainsDef d (JView.obj t n sl el m dt v rt ps cs ch) =
      ((t == d.type && n == d.name) ||
        (match ch with
         | some l => jContainsDefList d l
         | none => false)) := by
  cases ch <;> rfl

/-- A rendered `Definition` element always carries the definition's own
`type`/`name` attributes. -/
theorem xContainsDef_self (e : Definition) (level : DetailLevel) (kids : List XNode) :
    xContainsDef e (XNode.ele "Definition" (xmlAttrs level e) kids) = true := by
  rw [xContainsDef]
  have h1 : (("type", e.type)) ∈ xmlAttrs level e := by
    unfold xmlAttrs
    exact List.mem_append.mpr (Or.inl (List.mem_append.mpr (Or.inl
      (List.mem_cons_self _ _))))
  have h2 : (("name", e.name)) ∈ xmlAttrs level e := by
    unfold xmlAttrs
    refine List.mem_append.mpr (Or.inl (List.mem_append.mpr (Or.inl ?_)))
    exact List.mem_cons_of_mem _ (List.mem_cons_self _ _)
  simp [h1, h2]

/-- Every definition reachable from `root` appears in `root`'s XML
rendering, given fuel exceeding the reachability depth. -/
theorem xContainsDef_render (defs : List Definition) (level : DetailLevel) :
    ∀ {root e : Definition} {n : Nat}, ReachableFrom defs root e n →
      ∀ fuel, n < fuel →
        xContainsDef e (renderDefinitionXML fuel defs level root) = true := by
  intro root e n h
  induction h with
  | refl d =>
    intro fuel _
    cases fuel with
    | zero => exact xContainsDef_self d level []
    | succ fuel => exact xContainsDef_self d level _
  | step hcs hcid hfind hrest ih =>
    intro fuel hfuel
    cases fuel with
    | zero => omega
    | succ fuel =>
      rw [renderDefinitionXML, xContainsDef]
      refine Bool.or_eq_true_iff.mpr (Or.inr ?_)
      refine xContainsDefList_of_mem ?_ (ih fuel (by omega))
      refine List.mem_append.mpr (Or.inr ?_)
      have hlen := List.length_pos.mpr (List.ne_nil_of_mem hcid)
      simp only [hcs]
      rw [if_pos hlen]
      refine List.mem_filterMap.mpr ⟨_, hcid, ?_⟩
      rw [hfind]
      rfl

/-- The common bullet text is part of the rendered Markdown line at every
detail level. -/
theorem mdMarker_infix_line (level : DetailLevel) (indent : Nat) (d : Definition) :
    (mdMarker d).data <:+: (mdDefLine level indent d).data := by
  cases level with
  | minimal =>
    simp only [mdDefLine, string_data_append]
    exact infix_append_right _ (List.infix_refl _)
  | standard =>
    simp only [mdDefLine, string_data_append]
    exact infix_append_left _ (infix_append_left _ (infix_append_left _
      (infix_append_right _ (List.infix_refl _))))
  | detailed =>
    simp only [mdDefLine, string_data_append]
    exact infix_append_left _ (infix_append_left _ (infix_append_left _
      (infix_append_left _ (infix_append_right _ (List.infix_refl _)))))

/-- Every definition reachable from `root` appears (as its bullet text) in
`root`'s Markdown rendering, given fuel exceeding the depth. -/
theorem mdMarker_infix_render (defs : List Definition) (level : DetailLevel) :
    ∀ {root e : Definition} {n : Nat}, ReachableFrom defs root e n →
      ∀ fuel indent, n < fuel →
        (mdMarker e).data <:+:
          (renderDefinitionMarkdown fuel defs level root indent).data := by
  intro root e n h
  induction h with
  | refl d =>
    intro fuel indent hf
    cases fuel with
    | zero => omega
    | succ fuel =>
      rw [renderDefinitionMarkdown]
      rw [string_data_append, string_data_append]
      exact infix_append_left _ (infix_append_left _ (mdMarker_infix_line level indent d))
  | step hcs hcid hfind hrest ih =>
    intro fuel indent hf
    cases fuel with
    | zero => omega
    | succ fuel =>
      rw [renderDefinitionMarkdown]
      rw [string_data_append, string_data_append]
      refine infix_append_right _ ?_
      have hlen := List.length_pos.mpr (List.ne_nil_of_mem hcid)
      simp only [hcs]
      rw [if_pos hlen]
      refine infix_join_of_mem (List.mem_map.mpr ⟨_, hcid, rfl⟩) ?_
      simp only [hfind]
      exact ih fuel (indent + 1) (by omega)

/-- A converted JSON object always carries the definition's own `type` and
`name`. -/
theorem jContainsDef_self_create (defs : List Definition) (level : DetailLevel)
    (e : Definition) (fuel : Nat) :
    jContainsDef e (createDefinitionObject fuel defs level e) = true := by
  cases fuel with
  | zero =>
    rw [createDefinitionObject, jContainsDef]
    simp
  | succ fuel =>
    rw [createDefinitionObject]
    by_cases hl : level = DetailLevel.minimal
    · rw [if_pos hl, jContainsDef]
      simp
    · rw [if_neg hl, jContainsDef_obj]
      simp

/-- At `standard`/`detailed` level, every definition reachable from `root`
appears in `root`'s JSON object, given fuel exceeding the depth. -/
theorem jContainsDef_render (defs : List Definition) (level : DetailLevel)
    (hlevel : level ≠ DetailLevel.minimal) :
    ∀ {root e : Definition} {n : Nat}, ReachableFrom defs root e n →
      ∀ fuel, n < fuel →
        jContainsDef e (createDefinitionObject fuel defs level root) = true := by
  intro root e n h
  induction h with
  | refl d =>
    intro fuel _
    exact jContainsDef_self_create defs level d fuel
  | step hcs hcid hfind hrest ih =>
    intro fuel hf
    cases fuel with
    | zero => omega
    | succ fuel =>
      rw [createDefinitionObject, if_neg hlevel, jContainsDef_obj]
      refine Bool.or_eq_true_iff.mpr (Or.inr ?_)
      have hlen := List.length_pos.mpr (List.ne_nil_of_mem hcid)
      simp only [hcs]
      rw [if_pos hlen]
      refine jContainsDefList_of_mem ?_ (ih fuel (by omega))
      refine List.mem_filterMap.mpr ⟨_, hcid, ?_⟩
      rw [hfind]
      rfl

/-- C9 counterexample (to the claim as stated): at `minimal` detail the JSON
renderer returns before adding children, so a definition reachable from a
root does NOT appear in the JSON output (while it does at `standard`). -/
theorem claim_C9_counterexample :
    (c9root ∈ c9defs ∧ optStrTruthy c9root.parentId = false ∧
      ReachableFrom c9defs c9root c9child 1) ∧
    jsonContainsDef c9child
      (formatResultsJSON 5 [("f.ts", c9defs)] DetailLevel.minimal) = false ∧
    jsonContainsDef c9child
      (formatResultsJSON 5 [("f.ts", c9defs)] DetailLevel.standard) = true := by
  refine ⟨⟨by decide, by decide, ?_⟩, by decide, by decide⟩
  have h1 : c9root.children = some ["def-1"] := rfl
  have h2 : "def-1" ∈ ["def-1"] := by decide
  have h3 : c9defs.find? (fun x => x.id == some "def-1") = some c9child := by decide
  exact ReachableFrom.step h1 h2 h3 (ReachableFrom.refl c9child)

/-- C9 (amended): the XML and Markdown renderers, at every detail level, and
the JSON renderer at `standard` and `detailed` levels, start from the
definitions with no truthy `parentId` and recurse through `children` in
stored order, so every definition reachable from a root appears in the
output; at `minimal` detail the JSON renderer emits only the root objects
(no recursion). -/
theorem claim_C9_renderer_coverage (fuel : Nat)
    (results : List (String × List Definition)) (level : DetailLevel)
    (directoryPath : String) (relative : String → String) (fp : String)
    (definitions : List Definition) (root e : Definition) (n : Nat)
    (hkeys : (results.map Prod.fst).Nodup)
    (hfile : (fp, definitions) ∈ results)
    (hroot : root ∈ definitions) (htop : optStrTruthy root.parentId = false)
    (hreach : ReachableFrom definitions root e n) (hfuel : n < fuel) :
    xContainsDef e (formatResultsXML fuel results level) = true ∧
    (mdMarker e).data <:+:
      (formatResultsMarkdown fuel results level directoryPath relative).data ∧
    (level ≠ DetailLevel.minimal →
      jsonContainsDef e (formatResultsJSON fuel results level) = true) := by
  have htl : root ∈ definitions.filter (fun d => !(optStrTruthy d.parentId)) :=
    List.mem_filter.mpr ⟨hroot, by simp [htop]⟩
  refine ⟨?_, ?_, ?_⟩
  · rw [formatResultsXML, xContainsDef]
    refine Bool.or_eq_true_iff.mpr (Or.inr ?_)
    refine xContainsDefList_of_mem
      (List.mem_map.mpr ⟨(fp, definitions), hfile, rfl⟩) ?_
    rw [xContainsDef]
    refine Bool.or_eq_true_iff.mpr (Or.inr ?_)
    refine xContainsDefList_of_mem ?_
      (xContainsDef_render definitions level hreach fuel hfuel)
    exact List.mem_map.mpr ⟨root, htl, rfl⟩
  · simp only [formatResultsMarkdown]
    rw [string_data_append, string_data_append]
    refine infix_append_left _ (infix_append_right _ ?_)
    have hfpmem : fp ∈ stableSortBy (fun a b => decide (a ≤ b)) (results.map Prod.fst) :=
      mem_stableSortBy.mpr (List.mem_map.mpr ⟨(fp, definitions), hfile, rfl⟩)
    refine infix_join_of_mem (List.mem_map.mpr ⟨fp, hfpmem, rfl⟩) ?_
    simp only [find?_key_of_mem_nodup hkeys hfile]
    have hne : (definitions.filter (fun d => !(optStrTruthy d.parentId))).length ≠ 0 := by
      have := List.length_pos.mpr (List.ne_nil_of_mem htl)
      omega
    rw [if_neg (by simp [hne])]
    rw [string_data_append, string_data_append]
    refine infix_append_left _ (infix_append_right _ ?_)
    refine infix_join_of_mem (List.mem_map.mpr ⟨root, htl, rfl⟩) ?_
    exact mdMarker_infix_render definitions level hreach fuel 0 hfuel
  · intro hlv
    unfold jsonContainsDef
    rw [List.any_eq_true]
    refine ⟨(fp, (definitions.filter (fun d => !(optStrTruthy d.parentId))).map
      (createDefinitionObject fuel definitions level)), ?_, ?_⟩
    · unfold formatResultsJSON
      exact List.mem_map.mpr ⟨(fp, definitions), hfile, rfl⟩
    · refine jContainsDefList_of_mem ?_
        (jContainsDef_render definitions level hlv hreach fuel hfuel)
      exact List.mem_map.mpr ⟨root, htl, rfl⟩

/-- Witness for the amended C9 at the concrete two-definition scenario, at
`standard` detail. -/
theorem claim_C9_renderer_coverage_witness :
    xContainsDef c9child
      (formatResultsXML 5 [("f.ts", c9defs)] DetailLevel.standard) = true ∧
    (mdMarker c9child).data <:+:
      (formatResultsMarkdown 5 [("f.ts", c9defs)] DetailLevel.standard "dir"
        (fun s => s)).data ∧
    (DetailLevel.standard ≠ DetailLevel.minimal →
      jsonContainsDef c9child
        (formatResultsJSON 5 [("f.ts", c9defs)] DetailLevel.standard) = true) :=
  claim_C9_renderer_coverage 5 [("f.ts", c9defs)] DetailLevel.standard "dir"
    (fun s => s) "f.ts" c9defs c9root c9child 1 (by decide) (by decide) (by decide)
    (by decide)
    (ReachableFrom.step (rfl : c9root.children = some ["def-1"])
      (by decide : "def-1" ∈ ["def-1"])
      (by decide : c9defs.find? (fun x => x.id == some "def-1") = some c9child)
      (ReachableFrom.refl c9child))
    (by decide)

end CodeScanner
